import Mathlib

/-!
Verification development for the pdf-anonymizer service.

The definitions below are shallow embeddings of the Python source:
`src/service/anonymize_service.py` (the authoritative revision),
`src/pdf_anonymizer/app.py`, and `src/service/minio_service.py`.
External collaborators (PyMuPDF document engine, the `re` module, the
`base64` codec, the MinIO client) are modelled by explicit parameters or
small concrete functions, documented where they appear.
-/

/- ===================== Character-level models ===================== -/

/-- Model of CPython `str.upper` restricted to single-code-point case
mappings, on the code points exercised in this development: ASCII
letters, the Greek letters omega (U+03C9 maps to U+03A9), and caseless
code points (e.g. CJK ideographs) which map to themselves. -/
def pyUpper (c : Char) : Char :=
  if c = 'ω' then 'Ω'
  else if 'a' ≤ c ∧ c ≤ 'z' then Char.ofNat (c.toNat - 32)
  else c

/-- Model of CPython `str.lower` on the same code points; the Greek
capital omega U+03A9 maps to U+03C9, caseless code points map to
themselves. -/
def pyLower (c : Char) : Char :=
  if c = 'Ω' then 'ω'
  else if 'A' ≤ c ∧ c ≤ 'Z' then Char.ofNat (c.toNat + 32)
  else c

/-- Model of the per-character folding performed by `re.IGNORECASE`
matching on `str` patterns (simple case folding, one code point to one
code point): two characters match case-insensitively iff their folds
are equal. -/
def pyFold (c : Char) : Char := pyLower c

/- ===================== CaseVariationExpander =====================
   Source: AnonymizationService._generate_case_variations and
   AnonymizationService._expand_non_ascii_variations
   (src/service/anonymize_service.py lines 347-408).
   Text is embedded as `List Char`; the Python `str.upper`/`str.lower`
   collaborators are passed as the `up`/`low` parameters. -/

/-- `ord(c) > 127` (src line 362 and 381). -/
def isNonAscii (c : Char) : Bool := 127 < c.toNat

/-- `[i for i, c in enumerate(word) if ord(c) > 127]` (src line 381). -/
def nonAsciiPositions (w : List Char) : List Nat :=
  (List.range w.length).filter (fun i => isNonAscii (w.getD i ' '))

/-- Bit `b` of `i`: `(i >> b) & 1` (src line 399). -/
def bitOf (i b : Nat) : Nat := (i >>> b) % 2

/-- The inner loop of `_generate_case_variations` (src lines 394-406):
`for bit_pos, char_pos in enumerate(non_ascii_positions): chars[char_pos]
 = chars[char_pos].upper() if bit set else .lower()`. -/
def applyCaseBits (up low : Char → Char) :
    List Char → List Nat → Nat → Nat → List Char
  | chars, [], _, _ => chars
  | chars, p :: ps, bitPos, i =>
    let c := chars.getD p ' '
    applyCaseBits up low
      (chars.set p (if bitOf i bitPos = 1 then up c else low c)) ps (bitPos + 1) i

/-- `AnonymizationService._generate_case_variations` (src lines 369-408):
returns `[word]` when there is no non-ASCII position, otherwise the list
of `2 ^ k` case variants indexed by `i in range(2 ** k)`. -/
def generate_case_variations (up low : Char → Char) (w : List Char) :
    List (List Char) :=
  let ps := nonAsciiPositions w
  if ps.isEmpty then [w]
  else (List.range (2 ^ ps.length)).map (fun i => applyCaseBits up low w ps 0 i)

/-- `AnonymizationService._expand_non_ascii_variations` (src lines
347-367): `result = set(words)`, then for each word containing a
non-ASCII character the variations are unioned in.  The Python `set` is
embedded as a `Finset`. -/
def expand_non_ascii_variations (up low : Char → Char)
    (words : List (List Char)) : Finset (List Char) :=
  words.foldl
    (fun acc w =>
      if w.any isNonAscii then acc ∪ (generate_case_variations up low w).toFinset
      else acc)
    words.toFinset

/- ===================== Markdown producer =====================
   Source: AnonymizationService._generate_markdown_output
   (src/service/anonymize_service.py lines 286-345).  The page texts
   delivered by the engine method `page.get_text()` are the `pages`
   parameter; `re.sub(re.escape(word), "[REDACTED]", text,
   flags=re.IGNORECASE)` is embedded as a literal, case-insensitive,
   leftmost non-overlapping global replacement. -/

/-- Case-insensitive prefix test: the pattern `t` fold-matches the first
`t.length` characters of `s`. -/
def ciPrefix (fold : Char → Char) : List Char → List Char → Bool
  | [], _ => true
  | _ :: _, [] => false
  | a :: t, b :: s => (fold b = fold a : Bool) && ciPrefix fold t s

/-- A case-insensitive occurrence of `t` somewhere in `s` (at some
suffix). -/
def occursCI (fold : Char → Char) (t : List Char) : List Char → Bool
  | [] => ciPrefix fold t []
  | c :: rest => ciPrefix fold t (c :: rest) || occursCI fold t rest

/-- The scan loop of the global substitution, structurally recursive on
a fuel bound (one unit per consumed character; `s.length` always
suffices). -/
def replaceAllCIAux (fold : Char → Char) (t marker : List Char) :
    Nat → List Char → List Char
  | 0, s => s
  | _ + 1, [] => []
  | fuel + 1, c :: rest =>
    if !t.isEmpty && ciPrefix fold t (c :: rest) then
      marker ++ replaceAllCIAux fold t marker fuel (rest.drop (t.length - 1))
    else
      c :: replaceAllCIAux fold t marker fuel rest

/-- Model of `re.sub(re.escape(t), marker, s, flags=re.IGNORECASE)` for a
nonempty literal pattern `t`: scan left to right; on a match emit the
marker and resume after the matched region, otherwise copy one
character.  (For an empty pattern this copies `s`; the service never
produces an empty pattern from a nonempty term.) -/
def replaceAllCI (fold : Char → Char) (t marker : List Char)
    (s : List Char) : List Char :=
  replaceAllCIAux fold t marker s.length s

/-- The fixed replacement marker (src line 307). -/
def redactMarker : List Char := "[REDACTED]".data

/-- The per-page replacement loop (src lines 306-307): one global
case-insensitive substitution per sensitive term, in list order, each
applied to the output of the previous one. -/
def redactText (fold : Char → Char) (terms : List (List Char))
    (text : List Char) : List Char :=
  terms.foldl (fun s t => replaceAllCI fold t redactMarker s) text

/-- Decimal digit extraction on a fuel bound (`n + 1` always
suffices). -/
def natToDecAux : Nat → Nat → List Char
  | 0, _ => []
  | fuel + 1, n =>
    if n < 10 then [Nat.digitChar n]
    else natToDecAux fuel (n / 10) ++ [Nat.digitChar (n % 10)]

/-- Decimal rendering of a natural number, modelling the Python
f-string formatting of `page_num + 1` (src line 309). -/
def natToDec (n : Nat) : List Char := natToDecAux (n + 1) n

/-- The page heading `f"## Page {m}\n\n"` (src line 309). -/
def headingFor (m : Nat) : List Char :=
  "## Page ".data ++ natToDec m ++ ['\n', '\n']

/-- The markdown accumulation loop (src lines 300-309), with the page
counter made explicit: `md_content += f"## Page {n+1}\n\n{text}\n\n"`
where `text` is the redacted page text. -/
def mdSections (fold : Char → Char) (terms : List (List Char)) :
    Nat → List (List Char) → List Char
  | _, [] => []
  | n, t :: rest =>
    headingFor (n + 1) ++ redactText fold terms t ++ ['\n', '\n'] ++
      mdSections fold terms (n + 1) rest

/-- The full markdown content produced by `_generate_markdown_output`
for the given post-redaction page texts. -/
def mdContent (fold : Char → Char) (terms : List (List Char))
    (pages : List (List Char)) : List Char :=
  mdSections fold terms 0 pages

/-- The character alphabet of the fixed marker and the page headings:
every character the markdown producer inserts besides the page texts
comes from this list. -/
def mdFrameAlphabet : List Char :=
  redactMarker ++ "## Page \n".data ++ "0123456789".data

/- ===================== RedactionApplier: event trace =====================
   Source: AnonymizationService._anonymize_document
   (src/service/anonymize_service.py lines 149-177).  This model records
   the sequence of document-engine calls the loop issues; a page is
   embedded as its `search_for` capability (pattern to bounding
   rectangles). -/

/-- A bounding rectangle as mutated in src lines 169-172. -/
structure Rect where
  x0 : Int
  y0 : Int
  x1 : Int
  y1 : Int
deriving DecidableEq, Repr

/-- The padding applied before marking (src lines 169-172):
`rect.x0 -= 2; rect.y0 -= 2; rect.x1 += 2; rect.y1 += 2`. -/
def padRect (r : Rect) : Rect :=
  ⟨r.x0 - 2, r.y0 - 2, r.x1 + 2, r.y1 + 2⟩

/-- One document-engine call issued by `_anonymize_document`. -/
inductive REvent where
  | search (page : Nat) (w : List Char)
  | mark (page : Nat) (r : Rect) (fill : Int × Int × Int)
  | commit (page : Nat)
deriving DecidableEq, Repr

/-- The page index an event belongs to. -/
def REvent.page : REvent → Nat
  | .search p _ => p
  | .mark p _ _ => p
  | .commit p => p

/-- Whether an event is a `page.apply_redactions()` call. -/
def REvent.isCommit : REvent → Bool
  | .commit _ => true
  | _ => false

/-- The calls issued for one page (src lines 165-174): for each pattern,
one `page.search_for(word)` followed by one
`page.add_redact_annot(padded rect, fill=(0,0,0))` per returned
rectangle. -/
def pageEvents (patterns : List (List Char)) (pn : Nat)
    (page : List Char → List Rect) : List REvent :=
  patterns.flatMap (fun w =>
    REvent.search pn w :: (page w).map (fun r => REvent.mark pn (padRect r) (0, 0, 0)))

/-- The full trace of `_anonymize_document` (src lines 161-177), with the
page counter explicit: per page all searches and marks, then exactly one
`page.apply_redactions()` commit, then the next page. -/
def anonymizeTrace (patterns : List (List Char)) :
    Nat → List (List Char → List Rect) → List REvent
  | _, [] => []
  | pn, pg :: rest =>
    pageEvents patterns pn pg ++
      (REvent.commit pn :: anonymizeTrace patterns (pn + 1) rest)

/- ===================== RedactionApplier: text semantics =====================
   Source: the same `_anonymize_document` loop, this time with the
   document engine modelled at the text level so the idempotence claim
   can be settled.  A page is a sequence of glyph slots
   (`List (Option Char)`, `none` = already redacted); `page.search_for`
   returns the leftmost non-overlapping occurrences; committing the
   marked regions blanks exactly the matched slots (the fixed 2-unit pad
   covers glyph extremities without reaching neighbouring glyphs). -/

namespace EngineText

/-- The pattern `w` matches the page at slot `p`: the next `w.length`
slots all hold the corresponding pattern characters. -/
def matchAt (w : List Char) (page : List (Option Char)) (p : Nat) : Bool :=
  (List.range w.length).all (fun j => page.getD (p + j) none == some (w.getD j ' '))

/-- Scan of `page.search_for(w)` from slot `p`: leftmost matches, each
found match resuming after its end. -/
def searchAux (w : List Char) (page : List (Option Char)) (p : Nat) : List Nat :=
  if _h : page.length ≤ p then []
  else if matchAt w page p then p :: searchAux w page (p + max w.length 1)
  else searchAux w page (p + 1)
  termination_by page.length - p
  decreasing_by
    · omega
    · omega

/-- `page.search_for(w)`: start positions of the found occurrences.  An
empty pattern finds nothing. -/
def search (w : List Char) (page : List (Option Char)) : List Nat :=
  if w.isEmpty then [] else searchAux w page 0

/-- Whether slot `idx` lies in one of the marked regions
(start, length). -/
def coveredBy (ranges : List (Nat × Nat)) (idx : Nat) : Bool :=
  ranges.any (fun r => r.1 ≤ idx && idx < r.1 + r.2)

/-- `page.apply_redactions()`: blank every slot lying in a marked
region. -/
def eraseRanges (page : List (Option Char)) (ranges : List (Nat × Nat)) :
    List (Option Char) :=
  (List.range page.length).map
    (fun idx => if coveredBy ranges idx then none else page.getD idx none)

/-- The regions marked on one page before its commit (src lines
165-174): for each pattern, one region per found occurrence. -/
def pageRanges (patterns : List (List Char)) (page : List (Option Char)) :
    List (Nat × Nat) :=
  patterns.flatMap (fun w => (search w page).map (fun i => (i, w.length)))

/-- One iteration of the page loop: search all patterns, mark, commit. -/
def anonymizePage (patterns : List (List Char)) (page : List (Option Char)) :
    List (Option Char) :=
  eraseRanges page (pageRanges patterns page)

/-- `_anonymize_document` over the text model: every page is processed
(and committed) independently, in order. -/
def anonymizeDocument (patterns : List (List Char))
    (doc : List (List (Option Char))) : List (List (Option Char)) :=
  doc.map (anonymizePage patterns)

end EngineText

/- ===================== Output generation and delivery =====================
   Source: AnonymizationService._generate_pdf_output /
   _generate_image_output / _generate_markdown_output
   (src/service/anonymize_service.py lines 179-345) and the endpoint
   glue in src/pdf_anonymizer/app.py.  Result dictionaries are embedded
   as association lists with Python dict assignment semantics; byte
   payloads are abstract strings. -/

/-- A JSON-serialisable value stored in the result dictionary. -/
inductive JVal where
  | str (s : String)
  | arr (xs : List String)
  | null
deriving DecidableEq, Repr

/-- Python dict lookup `d[k]` / `k in d`. -/
def dfind (d : List (String × JVal)) (k : String) : Option JVal :=
  (d.find? (fun p => p.1 = k)).map (fun p => p.2)

/-- Python dict assignment `d[k] = v`: replace the existing entry in
place, or append a new one. -/
def dset : List (String × JVal) → String → JVal → List (String × JVal)
  | [], k, v => [(k, v)]
  | p :: d, k, v => if p.1 = k then (k, v) :: d else p :: dset d k v

/-- Python `d.update(e)`. -/
def dupdate (d e : List (String × JVal)) : List (String × JVal) :=
  e.foldl (fun acc p => dset acc p.1 p.2) d

/-- Model of `base64.b64encode(bytes).decode("utf-8")`; the codec is an
external collaborator, only used as an opaque tagging of the payload. -/
def b64 (s : String) : String := "base64:" ++ s

/-- The blob-store collaborator as seen by one request:
`uploadLocation` is `os.environ.get('MINIO_UPLOAD_LOCATION',
'anonymized-pdfs')`; `put name` is the combined
`create_bucket_if_not_exists` + `put_object` call for an object name,
returning `Except.error (str e)` when the storage raises. -/
structure StoreEnv where
  uploadLocation : String
  put : String → Except String Unit

/-- Object key of the pdf artifact: `f"{process_id}/result.pdf"`
(src line 207). -/
def pdfObjectName (pid : String) : String := pid ++ "/result.pdf"

/-- Object key of the page-`n` image artifact:
`f"{process_id}/result_page_{page_num}.png"` (src line 261), with
`page_num` the zero-based loop counter. -/
def imgObjectName (pid : String) (n : Nat) : String :=
  pid ++ "/result_page_" ++ toString n ++ ".png"

/-- Object key of the markdown artifact: `f"{process_id}/result.md"`
(src line 318). -/
def mdObjectName (pid : String) : String := pid ++ "/result.md"

/-- The document handle as consumed by the output producers, after the
redaction pass: serialized bytes (`doc.save`), rendered page images in
page order (`page.get_pixmap()`), and extracted page texts in page
order (`page.get_text()`). -/
structure SDoc where
  bytes : String
  imgs : List String
  texts : List (List Char)
deriving DecidableEq, Repr

/-- `AnonymizationService._generate_pdf_output` (src lines 179-229):
response mode returns the transport-encoded bytes under `"pdf"`; url
mode uploads under the deterministic key and returns the object path,
but an upload failure stores the message under the key `"error"`
(src line 226). -/
def generate_pdf_output (env : StoreEnv) (docBytes : String)
    (result_deliver : String) (pid : String) : List (String × JVal) :=
  if result_deliver = "response" then [("pdf", .str (b64 docBytes))]
  else
    match env.put (pdfObjectName pid) with
    | .ok _ => [("pdf", .str (env.uploadLocation ++ "/" ++ pdfObjectName pid))]
    | .error e => [("error", .str ("Failed to upload PDF to storage: " ++ e))]

/-- The per-page loop of `_generate_image_output` (src lines 244-283),
with the page counter explicit: in url mode a failed upload appends the
embedded marker `"Error: " ++ e` in place of the object path
(src line 280). -/
def imageEntries (env : StoreEnv) (result_deliver : String) (pid : String) :
    Nat → List String → List String
  | _, [] => []
  | n, bytes :: rest =>
    (if result_deliver = "response" then b64 bytes
     else
       match env.put (imgObjectName pid n) with
       | .ok _ => env.uploadLocation ++ "/" ++ imgObjectName pid n
       | .error e => "Error: " ++ e) :: imageEntries env result_deliver pid (n + 1) rest

/-- `AnonymizationService._generate_image_output` (src lines 231-284). -/
def generate_image_output (env : StoreEnv) (pageImgs : List String)
    (result_deliver : String) (pid : String) : List (String × JVal) :=
  [("img", .arr (imageEntries env result_deliver pid 0 pageImgs))]

/-- `AnonymizationService._generate_markdown_output` (src lines 286-345):
in url mode a failed upload returns the embedded marker under `"md"`
(src line 345). -/
def generate_markdown_output (env : StoreEnv) (pageTexts : List (List Char))
    (sensitive : List String) (result_deliver : String) (pid : String) :
    List (String × JVal) :=
  let md := String.mk (mdContent pyFold (sensitive.map String.data) pageTexts)
  if result_deliver = "response" then [("md", .str md)]
  else
    match env.put (mdObjectName pid) with
    | .ok _ => [("md", .str (env.uploadLocation ++ "/" ++ mdObjectName pid))]
    | .error e => [("md", .str ("Error: " ++ e))]

/- ===================== Service orchestration =====================
   Source: AnonymizationService.anonymize_pdf
   (src/service/anonymize_service.py lines 14-70) and
   _load_pdf_document (lines 72-89). -/

/-- Python truthiness of an optional string field (absent or empty is
falsy). -/
def truthyS : Option String → Bool
  | none => false
  | some s => !s.isEmpty

/-- The input-resolution collaborators: `fromB64` is the
`_load_from_base64` outcome for a payload, `fromUrl` the
`_load_from_url` outcome for a URL or `bucket/key` reference.  An
`Except.error` is the error dictionary (or converted exception) text. -/
structure Loader where
  fromB64 : String → Except String SDoc
  fromUrl : String → Except String SDoc

/-- `AnonymizationService._load_pdf_document` (src lines 72-89):
`pdf_content` is examined first, `pdf_file` only when `pdf_content` is
falsy; with neither, the error dictionary is returned. -/
def load_pdf_document (L : Loader) (pdf_content pdf_file : Option String) :
    Except String SDoc :=
  if truthyS pdf_content then L.fromB64 (pdf_content.getD "")
  else if truthyS pdf_file then L.fromUrl (pdf_file.getD "")
  else .error "Either pdf_content or pdf_file must be provided"

/-- The process identifier used for the whole request (src lines 40-42):
`if not process_id: process_id = str(uuid.uuid4())`, with the fresh
uuid passed in as `gen`. -/
def effectivePid (gen : String) (process_id : Option String) : String :=
  if truthyS process_id then process_id.getD "" else gen

/-- The body of `AnonymizationService.anonymize_pdf` (src lines 39-64)
after a successful load: one `result.update(...)` per requested
format, in the fixed order pdf, img, md (src lines 53-64). -/
def anonymize_body (env : StoreEnv) (doc : SDoc) (sensitive : List String)
    (output_format : List String) (result_deliver : String) (pid : String) :
    List (String × JVal) :=
  let r0 : List (String × JVal) := []
  let r1 := if "pdf" ∈ output_format then
      dupdate r0 (generate_pdf_output env doc.bytes result_deliver pid) else r0
  let r2 := if "img" ∈ output_format then
      dupdate r1 (generate_image_output env doc.imgs result_deliver pid) else r1
  if "md" ∈ output_format then
    dupdate r2 (generate_markdown_output env doc.texts sensitive result_deliver pid)
  else r2

/-- `AnonymizationService.anonymize_pdf` (src lines 14-70) for runs in
which no exception escapes the collaborators: generate the process id if
absent, load, then produce the requested outputs; a load failure returns
its error dictionary. -/
def anonymize_pdf_model (env : StoreEnv) (L : Loader) (gen : String)
    (sensitive : List String) (pdf_content pdf_file : Option String)
    (output_format : List String) (result_deliver : String)
    (process_id : Option String) : List (String × JVal) :=
  let pid := effectivePid gen process_id
  match load_pdf_document L pdf_content pdf_file with
  | .error msg => [("error", .str msg)]
  | .ok doc => anonymize_body env doc sensitive output_format result_deliver pid

/-- The `try/except` wrapper of `anonymize_pdf` (src lines 66-67): any
exception raised inside the body is collapsed to
`{"error": str(e)}`. -/
def anonymize_pdf_try (body : Except String (List (String × JVal))) :
    List (String × JVal) :=
  match body with
  | .ok r => r
  | .error e => [("error", .str e)]

/- ===================== HTTP endpoint =====================
   Source: anonymize_pdf_endpoint (src/pdf_anonymizer/app.py lines
   10-70).  The request is embedded with its JSON fields already typed;
   `Except.error` at the request stage stands for an exception raised
   while reading the request, caught by the outer handler (lines
   69-70). -/

/-- The JSON request body as read by the endpoint. -/
structure Req where
  sensitive_content : Option (List String)
  pdf_content : Option String
  pdf_file : Option String
  output_format : Option (List String)
  result_deliver : Option String
  process_id : Option String
deriving DecidableEq, Repr

/-- The valid formats literal `["img", "md", "pdf"]` (app.py line 34). -/
def validFormats : List String := ["img", "md", "pdf"]

/-- The effective output format list: `data.get('output_format', ["pdf"])`
(app.py line 30). -/
def effFormats (r : Req) : List String := r.output_format.getD ["pdf"]

/-- The effective delivery mode: `data.get('result_deliver', "response")`
(app.py line 39). -/
def effDeliver (r : Req) : String := r.result_deliver.getD "response"

/-- The validation chain of the endpoint (app.py lines 20-41), returning
the first failing check's error message (every failure is answered with
status 400).  `None`/absent and empty values are falsy as in Python. -/
def validate (r : Req) : Option String :=
  if r.sensitive_content = none ∨ r.sensitive_content = some [] then
    some "sensitive_content must be a non-empty list"
  else if !truthyS r.pdf_content && !truthyS r.pdf_file then
    some "Either pdf_content or pdf_file must be provided"
  else if effFormats r = [] then
    some "output_format must be a non-empty list"
  else
    match (effFormats r).find? (fun f => !(validFormats.contains f)) with
    | some f =>
      some ("Invalid output format: " ++ f ++ ". Must be one of ['img', 'md', 'pdf']")
    | none =>
      if effDeliver r ≠ "url" ∧ effDeliver r ≠ "response" then
        some "result_deliver must be either 'url' or 'response'"
      else none

/-- `AnonymizationService.anonymize_pdf.__defaults__[-1]`: the static
default of the `process_id` parameter (src line 21), which is `None`. -/
def anonymize_pdf_defaults_last : Option String := none

/-- The response patch-up of app.py lines 56-62: a caller-supplied
(truthy) process id is echoed; otherwise, when the result lacks the key,
the value of `__defaults__[-1]` is inserted. -/
def addProcessId (r : Req) (result : List (String × JVal)) :
    List (String × JVal) :=
  if truthyS r.process_id then
    dset result "process_id" (.str (r.process_id.getD ""))
  else if dfind result "process_id" = none then
    dset result "process_id"
      (match anonymize_pdf_defaults_last with
       | none => .null
       | some s => .str s)
  else result

/-- `anonymize_pdf_endpoint` (app.py lines 10-70) with the service
injected as `svc`: request-stage exceptions give 500; a falsy body or
any failed validation gives 400; otherwise the service result is
patched with `process_id` and answered 400 when it carries an
`"error"` key, 200 otherwise. -/
def endpoint (svc : Req → List (String × JVal))
    (reqE : Except String (Option Req)) : Nat × List (String × JVal) :=
  match reqE with
  | .error e => (500, [("error", .str e)])
  | .ok none => (400, [("error", .str "No JSON data provided")])
  | .ok (some r) =>
    match validate r with
    | some msg => (400, [("error", .str msg)])
    | none =>
      let result := addProcessId r (svc r)
      match dfind result "error" with
      | some v => (400, [("error", v)])
      | none => (200, result)

/-- The endpoint wired to the service model (app.py lines 47-54). -/
def endpointFull (env : StoreEnv) (L : Loader) (gen : String)
    (reqE : Except String (Option Req)) : Nat × List (String × JVal) :=
  endpoint
    (fun r =>
      anonymize_pdf_model env L gen (r.sensitive_content.getD [])
        r.pdf_content r.pdf_file (effFormats r) (effDeliver r) r.process_id)
    reqE

/- ===================== Resource lifecycle =====================
   Source: AnonymizationService._load_from_url (src lines 106-147) and
   _cleanup_resources (src lines 410-423), with the temporary-file
   system made explicit. -/

namespace Resource

/-- The temporary-file system: a fresh-name counter and the set of
files currently existing. -/
structure FS where
  counter : Nat
  files : List String
deriving DecidableEq, Repr

/-- `tempfile.NamedTemporaryFile(delete=False, suffix=".pdf")`: creates
a fresh file. -/
def FS.mkTemp (fs : FS) : String × FS :=
  let name := "/tmp/tmp" ++ toString fs.counter ++ ".pdf"
  (name, ⟨fs.counter + 1, name :: fs.files⟩)

/-- `os.path.exists`. -/
def FS.fileExists (fs : FS) (name : String) : Bool := fs.files.contains name

/-- `os.unlink`. -/
def FS.unlink (fs : FS) (name : String) : FS :=
  ⟨fs.counter, fs.files.erase name⟩

/-- The collaborators used by `_load_from_url`: the MinIO
`get_object` stream (by bucket and key) and `fitz.open` on the staged
bytes; `requests.get` for http URLs.  `Except.error` is a raised
exception's text. -/
structure UrlEnv where
  getObject : String → String → Except String String
  httpGet : String → Except String (Nat × String)
  fitzOpen : String → Except String SDoc

/-- Split a character list at the first `'/'`. -/
def splitOnceChars : List Char → Option (List Char × List Char)
  | [] => none
  | c :: rest =>
    if c = '/' then some ([], rest)
    else (splitOnceChars rest).map (fun p => (c :: p.1, p.2))

/-- `pdf_file.split('/', 1)`: at most two components. -/
def splitOnce (s : String) : List String :=
  match splitOnceChars s.data with
  | none => [s]
  | some (a, b) => [String.mk a, String.mk b]

/-- `s.startswith(pre)` over the character data. -/
def strStartsWith (pre s : String) : Bool := pre.data.isPrefixOf s.data

/-- `AnonymizationService._load_from_url` (src lines 106-147), threading
the temporary-file system.  The returned triple is (outcome, the
`temp_file` path handed back to the caller, final file system).  On the
MinIO path, a failure after staging (for example `fitz.open` raising) is
caught by the inner handler (src lines 132-133) which returns no
temp-file path, so the staged file stays behind; the http path behaves
the same through the outer handler (src lines 146-147). -/
def load_from_url (env : UrlEnv) (pdf_file : String) (fs : FS) :
    Except String SDoc × Option String × FS :=
  if !(strStartsWith "http://" pdf_file || strStartsWith "https://" pdf_file) then
    match splitOnce pdf_file with
    | [bucket, object] =>
      match env.getObject bucket object with
      | .error e => (.error ("Error retrieving PDF from MinIO: " ++ e), none, fs)
      | .ok data =>
        let (name, fs1) := fs.mkTemp
        match env.fitzOpen data with
        | .ok doc => (.ok doc, some name, fs1)
        | .error e => (.error ("Error retrieving PDF from MinIO: " ++ e), none, fs1)
    | _ => (.error ("Invalid MinIO object path: " ++ pdf_file), none, fs)
  else
    match env.httpGet pdf_file with
    | .error e => (.error ("Error downloading PDF: " ++ e), none, fs)
    | .ok (status, content) =>
      if status = 200 then
        let (name, fs1) := fs.mkTemp
        match env.fitzOpen content with
        | .ok doc => (.ok doc, some name, fs1)
        | .error e => (.error ("Error downloading PDF: " ++ e), none, fs1)
      else
        (.error ("Failed to download PDF from URL: " ++ toString status), none, fs)

/-- `AnonymizationService._cleanup_resources` (src lines 410-423): the
document handle is closed (no file-system effect) and the tracked
temporary file, when it exists, is unlinked. -/
def cleanup_resources (temp_file : Option String) (fs : FS) : FS :=
  match temp_file with
  | some name => if fs.fileExists name then fs.unlink name else fs
  | none => fs

/-- A whole `anonymize_pdf` run on the `pdf_file` path, reduced to its
file-system effect: load, then the `finally` cleanup with whatever
`temp_file` the loader handed back (src lines 36-70). -/
def requestFsEffect (env : UrlEnv) (pdf_file : String) (fs : FS) : FS :=
  let (_, temp_file, fs1) := load_from_url env pdf_file fs
  cleanup_resources temp_file fs1

end Resource

/- ===================== Theorems ===================== -/

/-- A storage environment in which a chosen set of object uploads
fails with a fixed message; used for concrete runs. -/
def envFailing (bad : List String) : StoreEnv :=
  { uploadLocation := "anonymized-pdfs"
    put := fun name => if name ∈ bad then .error "boom" else .ok () }

/-- A loader whose base64 path opens a fixed one-page document and whose
url path fails; used for concrete runs. -/
def loaderB64 (doc : SDoc) : Loader :=
  { fromB64 := fun _ => .ok doc
    fromUrl := fun _ => .error "url path not taken" }

/-- A concrete one-page document handle. -/
def doc1 : SDoc := { bytes := "PDF", imgs := ["IMG0"], texts := [['x']] }

/-- A concrete valid request: inline payload, formats pdf and img, url
delivery, caller-supplied process id `"p"`. -/
def reqPdfImgUrl : Req :=
  { sensitive_content := some ["a"]
    pdf_content := some "QQ=="
    pdf_file := none
    output_format := some ["pdf", "img"]
    result_deliver := some "url"
    process_id := some "p" }

/-- A concrete request supplying both `pdf_content` and `pdf_file`. -/
def reqBothSources : Req :=
  { sensitive_content := some ["a"]
    pdf_content := some "QQ=="
    pdf_file := some "bucket/doc.pdf"
    output_format := none
    result_deliver := none
    process_id := none }

/-- A concrete valid request with no caller process id: inline payload,
pdf format, url delivery. -/
def reqNoPid : Req :=
  { sensitive_content := some ["a"]
    pdf_content := some "QQ=="
    pdf_file := none
    output_format := some ["pdf"]
    result_deliver := some "url"
    process_id := none }

/-- Little-endian assembly of a bit list into a natural number; used to
exhibit the variant index that reproduces a given case choice. -/
def ofBits : List Bool → Nat
  | [] => 0
  | b :: bs => (if b then 1 else 0) + 2 * ofBits bs

/-- A concrete request supplying neither `pdf_content` nor `pdf_file`. -/
def reqNeither : Req :=
  { sensitive_content := some ["a"]
    pdf_content := none
    pdf_file := none
    output_format := none
    result_deliver := none
    process_id := none }

/-- C4. The staged temporary file is leaked when the document engine
fails to open a blob-store object: with `get_object` succeeding and
`fitz.open` raising on `pdf_file = "bucket/doc.pdf"`, `_load_from_url`
returns the error dictionary with no `temp_file`, so the `finally`
cleanup of `anonymize_pdf` removes nothing and the staged file is still
present after the request — the claim's release-on-every-exit-path
discipline is violated by the code. -/
theorem C4_staged_input_leak :
    (Resource.load_from_url
        ⟨fun _ _ => .ok "PDFBYTES", fun _ => .error "unused",
         fun _ => .error "broken PDF"⟩
        "bucket/doc.pdf" ⟨0, []⟩).2.1 = none ∧
    (Resource.load_from_url
        ⟨fun _ _ => .ok "PDFBYTES", fun _ => .error "unused",
         fun _ => .error "broken PDF"⟩
        "bucket/doc.pdf" ⟨0, []⟩).1 =
      .error "Error retrieving PDF from MinIO: broken PDF" ∧
    (Resource.requestFsEffect
        ⟨fun _ _ => .ok "PDFBYTES", fun _ => .error "unused",
         fun _ => .error "broken PDF"⟩
        "bucket/doc.pdf" ⟨0, []⟩).files = ["/tmp/tmp0.pdf"] := by
  exact ⟨by decide, by rfl, by decide⟩

/-- Lookup in a nonempty dictionary. -/
theorem dfind_cons (p : String × JVal) (d : List (String × JVal)) (k : String) :
    dfind (p :: d) k = if p.1 = k then some p.2 else dfind d k := by
  by_cases h : p.1 = k <;> simp [dfind, List.find?, h]

/-- Lookup after assignment at the same key. -/
theorem dfind_dset_self (d : List (String × JVal)) (k : String) (v : JVal) :
    dfind (dset d k v) k = some v := by
  induction d with
  | nil => simp [dset, dfind, List.find?]
  | cons p d ih =>
    by_cases h : p.1 = k
    · simp [dset, h, dfind_cons]
    · simp [dset, h, dfind_cons, ih]

/-- Lookup after assignment at a different key. -/
theorem dfind_dset_ne (d : List (String × JVal)) (k k' : String) (v : JVal)
    (h : k' ≠ k) : dfind (dset d k v) k' = dfind d k' := by
  induction d with
  | nil => simp [dset, dfind, List.find?, Ne.symm h]
  | cons p d ih =>
    by_cases hp : p.1 = k
    · subst hp
      simp [dset, dfind_cons, Ne.symm h]
    · by_cases hp' : p.1 = k'
      · simp [dset, hp, dfind_cons, hp', h]
      · simp [dset, hp, dfind_cons, hp', ih]


/-- C6. When the caller omits `process_id`, a fresh identifier `gen` is
generated once and namespaces every storage key (here the pdf artifact
is stored under `gen ++ "/result.pdf"`), but the endpoint's response
carries `process_id = null` — the value of
`anonymize_pdf.__defaults__[-1]` — instead of the generated identifier,
contradicting the code's own comment that the generated id is added to
the response. -/
theorem C6_process_id_not_returned (env : StoreEnv) (L : Loader)
    (gen : String) (doc : SDoc)
    (hload : load_pdf_document L reqNoPid.pdf_content reqNoPid.pdf_file = .ok doc)
    (hput : env.put (pdfObjectName gen) = .ok ()) :
    (endpointFull env L gen (.ok (some reqNoPid))).1 = 200 ∧
    dfind (endpointFull env L gen (.ok (some reqNoPid))).2 "process_id" =
      some JVal.null ∧
    dfind (endpointFull env L gen (.ok (some reqNoPid))).2 "pdf" =
      some (.str (env.uploadLocation ++ "/" ++ gen ++ "/result.pdf")) := by
  have hpid : effectivePid gen reqNoPid.process_id = gen := by
    simp [effectivePid, reqNoPid, truthyS]
  have hv : validate reqNoPid = none := by decide
  have hsvc : anonymize_pdf_model env L gen (reqNoPid.sensitive_content.getD [])
      reqNoPid.pdf_content reqNoPid.pdf_file (effFormats reqNoPid)
      (effDeliver reqNoPid) reqNoPid.process_id =
      [("pdf", JVal.str (env.uploadLocation ++ "/" ++ gen ++ "/result.pdf"))] := by
    simp only [anonymize_pdf_model, hload, hpid]
    have hf : effFormats reqNoPid = ["pdf"] := rfl
    have hd : effDeliver reqNoPid = "url" := rfl
    rw [hf, hd]
    simp only [anonymize_body, generate_pdf_output, pdfObjectName]
    rw [show env.put (gen ++ "/result.pdf") = Except.ok () from hput]
    simp +decide [dupdate, dset, String.append_assoc]
  simp only [endpointFull, endpoint, hv]
  rw [hsvc]
  have haddp : addProcessId reqNoPid
      [("pdf", JVal.str (env.uploadLocation ++ "/" ++ gen ++ "/result.pdf"))] =
      [("pdf", JVal.str (env.uploadLocation ++ "/" ++ gen ++ "/result.pdf")),
       ("process_id", JVal.null)] := by
    simp [addProcessId, reqNoPid, truthyS, dfind, List.find?, dset,
      anonymize_pdf_defaults_last]
  rw [haddp]
  have herr : dfind
      [("pdf", JVal.str (env.uploadLocation ++ "/" ++ gen ++ "/result.pdf")),
       ("process_id", JVal.null)] "error" = none := by
    simp [dfind, List.find?]
  rw [herr]
  refine ⟨rfl, ?_, ?_⟩ <;> simp [dfind, List.find?]

/-- C6 witness: a concrete run in which the response's `process_id` is
null rather than the generated identifier `"g"`. -/
theorem C6_process_id_not_returned_witness :
    dfind (endpointFull (envFailing []) (loaderB64 doc1) "g"
      (.ok (some reqNoPid))).2 "process_id" = some JVal.null :=
  (C6_process_id_not_returned (envFailing []) (loaderB64 doc1) "g" doc1
    rfl rfl).2.1

/-- C7 counterexample: a request whose processing raises an unexpected
failure inside the service (line 66-67 of the service collapses it to an
error dictionary) is answered with HTTP 400, not the claimed 500. -/
theorem C7_counterexample :
    endpoint (fun _ => anonymize_pdf_try (.error "TypeError: unexpected"))
      (.ok (some reqNoPid)) =
      (400, [("error", JVal.str "TypeError: unexpected")]) := by decide

/-- C7 amended: failures raised while reading the request (outside the
service call) are answered 500; any failure raised inside the service
body — unexpected ones included — is collapsed by the service's own
handler into an error dictionary and answered 400, exactly like
acquisition failures and failed validations. -/
theorem C7_amended (e : String) (svc : Req → List (String × JVal)) (r : Req)
    (hv : validate r = none) :
    endpoint svc (.error e) = (500, [("error", .str e)]) ∧
    endpoint (fun _ => anonymize_pdf_try (.error e)) (.ok (some r)) =
      (400, [("error", JVal.str e)]) ∧
    (∀ (env : StoreEnv) (L : Loader) (gen msg : String),
        load_pdf_document L r.pdf_content r.pdf_file = .error msg →
        endpointFull env L gen (.ok (some r)) =
          (400, [("error", JVal.str msg)])) ∧
    (∀ (r2 : Req) (msg : String), validate r2 = some msg →
        endpoint svc (.ok (some r2)) = (400, [("error", JVal.str msg)])) := by
  refine ⟨rfl, ?_, ?_, ?_⟩
  · by_cases ht : truthyS r.process_id <;>
      simp +decide [endpoint, hv, anonymize_pdf_try, addProcessId, ht, dset,
        dfind, List.find?, anonymize_pdf_defaults_last]
  · intro env L gen msg hload
    by_cases ht : truthyS r.process_id <;>
      simp +decide [endpointFull, endpoint, hv, anonymize_pdf_model, hload,
        addProcessId, ht, dset, dfind, List.find?, anonymize_pdf_defaults_last]
  · intro r2 msg hv2
    simp [endpoint, hv2]

/-- C7 witness: a concrete request-stage failure is answered 500. -/
theorem C7_amended_witness :
    endpoint (fun _ => []) (.error "TypeError: boom") =
      (500, [("error", .str "TypeError: boom")]) :=
  (C7_amended "TypeError: boom" (fun _ => []) reqNoPid (by decide)).1

/-- C8 counterexample: a request providing both `pdf_content` and
`pdf_file` passes validation and is processed normally (HTTP 200), so it
is not rejected as a validation failure as the claim states. -/
theorem C8_counterexample :
    validate reqBothSources = none ∧
    (endpointFull (envFailing []) (loaderB64 doc1) "g"
      (.ok (some reqBothSources))).1 = 200 := by
  exact ⟨by decide, by decide⟩

/-- C8 amended: a request providing neither source is rejected with the
exact claimed 400 body before the service (and hence any resource
acquisition) is reached — the outcome does not depend on the storage,
loader, or id-generation collaborators; a request providing both
sources is accepted, and `_load_pdf_document` gives `pdf_content`
precedence, ignoring `pdf_file`. -/
theorem C8_amended (env : StoreEnv) (L : Loader) (gen : String) (r : Req)
    (hs : ¬(r.sensitive_content = none ∨ r.sensitive_content = some []))
    (hc : truthyS r.pdf_content = false) (hf : truthyS r.pdf_file = false) :
    endpointFull env L gen (.ok (some r)) =
      (400, [("error", JVal.str "Either pdf_content or pdf_file must be provided")]) ∧
    (∀ (L2 : Loader) (c f : Option String), truthyS c = true →
        load_pdf_document L2 c f = L2.fromB64 (c.getD "")) := by
  constructor
  · have hv : validate r = some "Either pdf_content or pdf_file must be provided" := by
      simp [validate, hs, hc, hf]
    simp [endpointFull, endpoint, hv]
  · intro L2 c f hc2
    simp [load_pdf_document, hc2]

/-- C8 witness: the concrete neither-source request is answered with the
claimed validation failure. -/
theorem C8_amended_witness :
    endpointFull (envFailing []) (loaderB64 doc1) "g" (.ok (some reqNeither)) =
      (400, [("error", JVal.str "Either pdf_content or pdf_file must be provided")]) :=
  (C8_amended (envFailing []) (loaderB64 doc1) "g" reqNeither
    (by decide) rfl rfl).1

/-- A single-entry `update` is a single assignment. -/
theorem dupdate_single (d : List (String × JVal)) (k : String) (v : JVal) :
    dupdate d [(k, v)] = dset d k v := rfl

/-- In url mode the markdown producer always answers under the `"md"`
key: the object path on success, the embedded `"Error: "` marker on a
failed upload. -/
theorem gen_md_url (env : StoreEnv) (texts : List (List Char))
    (sens : List String) (pid : String) :
    generate_markdown_output env texts sens "url" pid =
      [("md", JVal.str (match env.put (mdObjectName pid) with
        | .ok _ => env.uploadLocation ++ "/" ++ mdObjectName pid
        | .error e => "Error: " ++ e))] := by
  cases h : env.put (mdObjectName pid) <;>
    simp +decide [generate_markdown_output, h]

/-- In url mode with a succeeding upload the pdf producer answers the
object path under `"pdf"`. -/
theorem gen_pdf_url_ok (env : StoreEnv) (bytes : String) (pid : String)
    (hok : env.put (pdfObjectName pid) = Except.ok ()) :
    generate_pdf_output env bytes "url" pid =
      [("pdf", JVal.str (env.uploadLocation ++ "/" ++ pdfObjectName pid))] := by
  simp +decide [generate_pdf_output, hok]

/-- The `n`-th image entry in url mode reflects exactly the upload
outcome of the `n`-th page's object: the path on success, the embedded
`"Error: "` marker on failure — entries of other pages are unaffected. -/
theorem imageEntries_get?_url (env : StoreEnv) (pid : String) :
    ∀ (imgs : List String) (m n : Nat), n < imgs.length →
    (imageEntries env "url" pid m imgs).get? n =
      some (match env.put (imgObjectName pid (m + n)) with
            | .ok _ => env.uploadLocation ++ "/" ++ imgObjectName pid (m + n)
            | .error e => "Error: " ++ e) := by
  intro imgs
  induction imgs with
  | nil => intro m n h; simp at h
  | cons b rest ih =>
    intro m n h
    cases n with
    | zero =>
      simp only [Nat.add_zero]
      cases hput : env.put (imgObjectName pid m) <;>
        simp +decide [imageEntries, hput]
    | succ n =>
      have h2 : n < rest.length := by simpa using h
      have := ih (m + 1) n h2
      have harith : m + 1 + n = m + (n + 1) := by omega
      rw [harith] at this
      simpa [imageEntries] using this

/-- The keys produced by `anonymize_body` in url mode when the pdf
upload (if requested) succeeds: no `"error"` key, and one entry per
requested format. -/
theorem anonymize_body_url_facts (env : StoreEnv) (doc : SDoc)
    (sens : List String) (fmts : List String) (pid : String)
    (hpdf : "pdf" ∈ fmts → env.put (pdfObjectName pid) = Except.ok ()) :
    dfind (anonymize_body env doc sens fmts "url" pid) "error" = none ∧
    ("pdf" ∈ fmts → dfind (anonymize_body env doc sens fmts "url" pid) "pdf" =
      some (.str (env.uploadLocation ++ "/" ++ pdfObjectName pid))) ∧
    ("img" ∈ fmts → dfind (anonymize_body env doc sens fmts "url" pid) "img" =
      some (.arr (imageEntries env "url" pid 0 doc.imgs))) ∧
    ("md" ∈ fmts → dfind (anonymize_body env doc sens fmts "url" pid) "md" =
      some (.str (match env.put (mdObjectName pid) with
        | .ok _ => env.uploadLocation ++ "/" ++ mdObjectName pid
        | .error e => "Error: " ++ e))) := by
  by_cases hp : "pdf" ∈ fmts <;> by_cases hi : "img" ∈ fmts <;>
    by_cases hm : "md" ∈ fmts <;>
    simp only [anonymize_body, hp, hi, hm, if_true, if_false, ite_true,
      ite_false, gen_md_url, generate_image_output, dupdate_single] <;>
    first
    | (simp +decide [gen_pdf_url_ok env doc.bytes pid (hpdf hp), dupdate_single,
        dset, dfind, List.find?, dfind_dset_self, dfind_dset_ne])
    | (simp +decide [dset, dfind, List.find?, dfind_dset_self, dfind_dset_ne])

/-- The `process_id` patch-up never touches other keys. -/
theorem dfind_addProcessId (r : Req) (d : List (String × JVal)) (k : String)
    (hk : k ≠ "process_id") : dfind (addProcessId r d) k = dfind d k := by
  unfold addProcessId
  by_cases ht : truthyS r.process_id
  · simp [ht, dfind_dset_ne _ _ _ _ hk]
  · by_cases hd : dfind d "process_id" = none <;>
      simp [ht, hd, dfind_dset_ne _ _ _ _ hk]

/-- C1 amended: in url delivery, when the pdf upload (if requested)
succeeds, the endpoint answers 200 and every requested format is
present: the pdf path under `"pdf"`, one image entry per page in page
order — each page's entry independently carrying either its object path
or the embedded `"Error: "` marker of its own failed upload — and the
markdown path-or-marker under `"md"`.  (A failed pdf upload instead
populates the top-level `"error"` key, which the endpoint answers with
status 400, dropping the sibling formats: see the counterexample.) -/
theorem C1_amended (env : StoreEnv) (L : Loader) (gen : String) (r : Req)
    (doc : SDoc)
    (hval : validate r = none)
    (hdel : effDeliver r = "url")
    (hload : load_pdf_document L r.pdf_content r.pdf_file = .ok doc)
    (hpdf : "pdf" ∈ effFormats r →
      env.put (pdfObjectName (effectivePid gen r.process_id)) = Except.ok ()) :
    (endpointFull env L gen (.ok (some r))).1 = 200 ∧
    ("pdf" ∈ effFormats r →
      dfind (endpointFull env L gen (.ok (some r))).2 "pdf" =
        some (.str (env.uploadLocation ++ "/" ++
          pdfObjectName (effectivePid gen r.process_id)))) ∧
    ("img" ∈ effFormats r →
      dfind (endpointFull env L gen (.ok (some r))).2 "img" =
        some (.arr (imageEntries env "url" (effectivePid gen r.process_id) 0
          doc.imgs))) ∧
    (∀ n, n < doc.imgs.length →
      (imageEntries env "url" (effectivePid gen r.process_id) 0 doc.imgs).get? n =
        some (match env.put (imgObjectName (effectivePid gen r.process_id) n) with
              | .ok _ => env.uploadLocation ++ "/" ++
                  imgObjectName (effectivePid gen r.process_id) n
              | .error e => "Error: " ++ e)) ∧
    ("md" ∈ effFormats r →
      dfind (endpointFull env L gen (.ok (some r))).2 "md" =
        some (.str (match env.put (mdObjectName (effectivePid gen r.process_id)) with
              | .ok _ => env.uploadLocation ++ "/" ++
                  mdObjectName (effectivePid gen r.process_id)
              | .error e => "Error: " ++ e))) := by
  have hbody := anonymize_body_url_facts env doc (r.sensitive_content.getD [])
    (effFormats r) (effectivePid gen r.process_id) hpdf
  have hsvc : anonymize_pdf_model env L gen (r.sensitive_content.getD [])
      r.pdf_content r.pdf_file (effFormats r) (effDeliver r) r.process_id =
      anonymize_body env doc (r.sensitive_content.getD []) (effFormats r)
        "url" (effectivePid gen r.process_id) := by
    simp only [anonymize_pdf_model, hload, hdel]
  have herr : dfind (addProcessId r (anonymize_body env doc
      (r.sensitive_content.getD []) (effFormats r) "url"
      (effectivePid gen r.process_id))) "error" = none := by
    rw [dfind_addProcessId _ _ _ (by decide)]
    exact hbody.1
  have hres : endpointFull env L gen (.ok (some r)) =
      (200, addProcessId r (anonymize_body env doc
        (r.sensitive_content.getD []) (effFormats r) "url"
        (effectivePid gen r.process_id))) := by
    simp only [endpointFull, endpoint, hval, hsvc, herr]
  refine ⟨by rw [hres], ?_, ?_, ?_, ?_⟩
  · intro hp
    rw [hres]
    show dfind _ "pdf" = _
    rw [dfind_addProcessId r _ "pdf" (by decide)]
    exact hbody.2.1 hp
  · intro hi
    rw [hres]
    show dfind _ "img" = _
    rw [dfind_addProcessId r _ "img" (by decide)]
    exact hbody.2.2.1 hi
  · intro n hn
    have := imageEntries_get?_url env (effectivePid gen r.process_id) doc.imgs 0 n hn
    simpa using this
  · intro hm
    rw [hres]
    show dfind _ "md" = _
    rw [dfind_addProcessId r _ "md" (by decide)]
    exact hbody.2.2.2 hm

/-- C1 witness: a concrete url-delivery run (formats pdf and img, the
page-0 image upload failing) is answered 200, with the pdf artifact
intact. -/
theorem C1_amended_witness :
    (endpointFull (envFailing [imgObjectName "p" 0]) (loaderB64 doc1) "g"
      (.ok (some reqPdfImgUrl))).1 = 200 :=
  (C1_amended (envFailing [imgObjectName "p" 0]) (loaderB64 doc1) "g"
    reqPdfImgUrl doc1 (by decide) rfl rfl (fun _ => rfl)).1

/-- C1 counterexample: with delivery mode url and formats pdf and img, a
storage failure for the pdf upload alone is answered with HTTP 400 — not
the claimed 200 — and the response body is only the error, dropping the
sibling img artifacts entirely (the pdf failure is stored under the
top-level `"error"` key, src line 226, which the endpoint treats as a
request failure, app.py lines 64-65). -/
theorem C1_counterexample :
    (endpointFull (envFailing [pdfObjectName "p"]) (loaderB64 doc1) "g"
      (.ok (some reqPdfImgUrl))).1 = 400 ∧
    dfind (endpointFull (envFailing [pdfObjectName "p"]) (loaderB64 doc1) "g"
      (.ok (some reqPdfImgUrl))).2 "img" = none ∧
    (endpointFull (envFailing [pdfObjectName "p"]) (loaderB64 doc1) "g"
      (.ok (some reqPdfImgUrl))).2 =
      [("error", JVal.str "Failed to upload PDF to storage: boom")] := by
  refine ⟨?_, ?_, ?_⟩ <;> decide

/-- C10. Page numbering is inconsistent between producers: in url
delivery the image artifact of the `n`-th page (zero-based loop index)
is stored under `.../result_page_{n}.png` — the first page under
`result_page_0.png` — while the markdown output heads the first page
with the one-based heading `"## Page 1"`. -/
theorem C10_page_numbering_mismatch (env : StoreEnv) (pid : String)
    (imgs : List String) (terms : List (List Char)) (pages : List (List Char))
    (himgs : imgs ≠ []) (hpages : pages ≠ [])
    (hok : ∀ name, env.put name = Except.ok ()) :
    (imageEntries env "url" pid 0 imgs).get? 0 =
      some (env.uploadLocation ++ "/" ++
        (pid ++ "/result_page_" ++ toString 0 ++ ".png")) ∧
    (∀ n, n < imgs.length → (imageEntries env "url" pid 0 imgs).get? n =
      some (env.uploadLocation ++ "/" ++
        (pid ++ "/result_page_" ++ toString n ++ ".png"))) ∧
    (mdContent pyFold terms pages).take 10 = "## Page 1\n".data := by
  have key : ∀ n, n < imgs.length → (imageEntries env "url" pid 0 imgs).get? n =
      some (env.uploadLocation ++ "/" ++
        (pid ++ "/result_page_" ++ toString n ++ ".png")) := by
    intro n hn
    have := imageEntries_get?_url env pid imgs 0 n hn
    rw [hok (imgObjectName pid (0 + n))] at this
    simpa [imgObjectName] using this
  refine ⟨?_, key, ?_⟩
  · have h0 : 0 < imgs.length := by
      cases imgs with
      | nil => exact absurd rfl himgs
      | cons a l => simp
    exact key 0 h0
  · cases pages with
    | nil => exact absurd rfl hpages
    | cons t ps =>
      show (mdSections pyFold terms 0 (t :: ps)).take 10 = _
      have hlen : 10 ≤ (headingFor (0 + 1)).length := by decide
      simp only [mdSections, List.append_assoc]
      rw [List.take_append_of_le_length hlen]
      decide

/-- C10 witness: a concrete one-page run stores the first image under
`result_page_0.png` while the markdown head reads `"## Page 1"`. -/
theorem C10_page_numbering_mismatch_witness :
    (imageEntries (envFailing []) "url" "p" 0 ["A"]).get? 0 =
      some ((envFailing []).uploadLocation ++ "/" ++
        ("p" ++ "/result_page_" ++ toString 0 ++ ".png")) ∧
    (mdContent pyFold [] [['x']]).take 10 = "## Page 1\n".data := by
  have h := C10_page_numbering_mismatch (envFailing []) "p" ["A"] [] [['x']]
    (by decide) (by decide) (fun name => by simp [envFailing])
  exact ⟨h.1, h.2.2⟩

/-- Every engine call issued for one page carries that page's index and
is not a commit. -/
theorem pageEvents_page (patterns : List (List Char)) (pn : Nat)
    (pg : List Char → List Rect) :
    ∀ e ∈ pageEvents patterns pn pg, e.page = pn ∧ e.isCommit = false := by
  intro e he
  simp only [pageEvents, List.mem_flatMap, List.mem_cons, List.mem_map] at he
  obtain ⟨w, -, he | ⟨r0, -, rfl⟩⟩ := he
  · subst he; exact ⟨rfl, rfl⟩
  · exact ⟨rfl, rfl⟩

/-- Every event of the trace started at page `pn` belongs to page `pn`
or later. -/
theorem anonymizeTrace_page_ge (patterns : List (List Char)) :
    ∀ (doc : List (List Char → List Rect)) (pn : Nat),
    ∀ e ∈ anonymizeTrace patterns pn doc, pn ≤ e.page := by
  intro doc
  induction doc with
  | nil => intro pn e he; simp [anonymizeTrace] at he
  | cons pg rest ih =>
    intro pn e he
    simp only [anonymizeTrace, List.mem_append, List.mem_cons] at he
    rcases he with he | he | he
    · exact le_of_eq (pageEvents_page patterns pn pg e he).1.symm
    · subst he; exact le_refl _
    · exact le_trans (Nat.le_succ pn) (ih (pn + 1) e he)

/-- The commits of the trace: one per page, in page order. -/
theorem anonymizeTrace_commits (patterns : List (List Char)) :
    ∀ (doc : List (List Char → List Rect)) (pn : Nat),
    (anonymizeTrace patterns pn doc).filter REvent.isCommit =
      (List.range doc.length).map (fun k => REvent.commit (pn + k)) := by
  intro doc
  induction doc with
  | nil => intro pn; rfl
  | cons pg rest ih =>
    intro pn
    have hpe : (pageEvents patterns pn pg).filter REvent.isCommit = [] := by
      rw [List.filter_eq_nil_iff]
      intro e he
      simp [(pageEvents_page patterns pn pg e he).2]
    simp only [anonymizeTrace, List.filter_append, hpe, List.nil_append]
    rw [List.filter_cons_of_pos (by rfl)]
    rw [ih (pn + 1)]
    simp only [List.length_cons]
    rw [List.range_succ_eq_map]
    simp only [List.map_cons, List.map_map, Nat.add_zero]
    refine congrArg (REvent.commit pn :: ·) ?_
    refine List.map_congr_left ?_
    intro k _
    simp only [Function.comp_apply]
    congr 1
    omega

/-- Page indices never decrease along the trace. -/
theorem anonymizeTrace_pairwise (patterns : List (List Char)) :
    ∀ (doc : List (List Char → List Rect)) (pn : Nat),
    List.Pairwise (fun a b => a.page ≤ b.page)
      (anonymizeTrace patterns pn doc) := by
  intro doc
  induction doc with
  | nil => intro pn; exact List.Pairwise.nil
  | cons pg rest ih =>
    intro pn
    rw [anonymizeTrace, List.pairwise_append]
    refine ⟨?_, ?_, ?_⟩
    · refine List.pairwise_of_forall_mem_list ?_
      intro a ha b hb
      rw [(pageEvents_page patterns pn pg a ha).1,
        (pageEvents_page patterns pn pg b hb).1]
    · rw [List.pairwise_cons]
      refine ⟨?_, ih (pn + 1)⟩
      intro e he
      exact le_trans (Nat.le_succ pn)
        (anonymizeTrace_page_ge patterns rest (pn + 1) e he)
    · intro a ha b hb
      rw [(pageEvents_page patterns pn pg a ha).1]
      simp only [List.mem_cons] at hb
      rcases hb with hb | hb
      · subst hb; exact le_refl _
      · exact le_trans (Nat.le_succ pn)
          (anonymizeTrace_page_ge patterns rest (pn + 1) b hb)

/-- The trace splits at the commit of page `pn + k`: everything before
it belongs to page `pn + k` or earlier (and earlier commits to strictly
earlier pages), everything after it to strictly later pages. -/
theorem anonymizeTrace_split (patterns : List (List Char)) :
    ∀ (doc : List (List Char → List Rect)) (pn k : Nat), k < doc.length →
    ∃ pre post, anonymizeTrace patterns pn doc =
        pre ++ REvent.commit (pn + k) :: post ∧
      (∀ e ∈ pre, e.page ≤ pn + k ∧ (e.isCommit = true → e.page < pn + k)) ∧
      (∀ e ∈ post, pn + k < e.page) := by
  intro doc
  induction doc with
  | nil => intro pn k hk; simp at hk
  | cons pg rest ih =>
    intro pn k hk
    cases k with
    | zero =>
      refine ⟨pageEvents patterns pn pg, anonymizeTrace patterns (pn + 1) rest,
        by simp [anonymizeTrace], ?_, ?_⟩
      · intro e he
        have h := pageEvents_page patterns pn pg e he
        exact ⟨le_of_eq (by simpa using h.1), fun hc => by simp [h.2] at hc⟩
      · intro e he
        have := anonymizeTrace_page_ge patterns rest (pn + 1) e he
        omega
    | succ k =>
      have hk2 : k < rest.length := by simpa using hk
      obtain ⟨pre', post', heq, hpre', hpost'⟩ := ih (pn + 1) k hk2
      refine ⟨pageEvents patterns pn pg ++ REvent.commit pn :: pre', post', ?_, ?_, ?_⟩
      · have harith : pn + 1 + k = pn + (k + 1) := by omega
        rw [anonymizeTrace, heq, harith]
        simp
      · intro e he
        simp only [List.mem_append, List.mem_cons] at he
        rcases he with he | he | he
        · have h := pageEvents_page patterns pn pg e he
          refine ⟨by omega, fun hc => ?_⟩
          · rw [h.2] at hc; exact absurd hc (by simp)
        · subst he
          exact ⟨by show pn ≤ pn + (k + 1); omega,
            fun _ => by show pn < pn + (k + 1); omega⟩
        · have h := hpre' e he
          exact ⟨by omega, fun hc => by have := h.2 hc; omega⟩
      · intro e he
        have := hpost' e he
        omega

/-- Soundness of marks: every mark event in the trace is the black fill
of some engine-reported rectangle padded by exactly 2. -/
theorem anonymizeTrace_mark_sound (patterns : List (List Char)) :
    ∀ (doc : List (List Char → List Rect)) (pn : Nat) (p : Nat) (r : Rect)
    (f : Int × Int × Int), REvent.mark p r f ∈ anonymizeTrace patterns pn doc →
    f = (0, 0, 0) ∧ ∃ k pg, doc.get? k = some pg ∧ p = pn + k ∧
      ∃ w ∈ patterns, ∃ r0 ∈ pg w, r = padRect r0 := by
  intro doc
  induction doc with
  | nil => intro pn p r f h; simp [anonymizeTrace] at h
  | cons pg rest ih =>
    intro pn p r f h
    simp only [anonymizeTrace, List.mem_append, List.mem_cons] at h
    rcases h with h | h | h
    · simp only [pageEvents, List.mem_flatMap, List.mem_cons, List.mem_map] at h
      obtain ⟨w, hw, h | ⟨r0, hr0, heq⟩⟩ := h
      · exact absurd h (by simp)
      · obtain ⟨h1, h2, h3⟩ := REvent.mark.inj heq.symm
        exact ⟨h3, 0, pg, rfl, by omega, w, hw, r0, hr0, h2⟩
    · exact absurd h (by simp)
    · obtain ⟨hf, k, pg', hk, hp, hrest⟩ := ih (pn + 1) p r f h
      exact ⟨hf, k + 1, pg', by simpa using hk, by omega, hrest⟩

/-- Completeness of marks: every rectangle the engine reports for any
pattern on any page is marked, padded by 2 and filled black. -/
theorem anonymizeTrace_mark_complete (patterns : List (List Char)) :
    ∀ (doc : List (List Char → List Rect)) (pn k : Nat)
    (pg : List Char → List Rect), doc.get? k = some pg →
    ∀ w ∈ patterns, ∀ r0 ∈ pg w,
    REvent.mark (pn + k) (padRect r0) (0, 0, 0) ∈ anonymizeTrace patterns pn doc := by
  intro doc
  induction doc with
  | nil => intro pn k pg hk; simp at hk
  | cons pg0 rest ih =>
    intro pn k pg hk w hw r0 hr0
    cases k with
    | zero =>
      simp only [List.get?_cons_zero, Option.some_inj] at hk
      subst hk
      simp only [anonymizeTrace, List.mem_append, List.mem_cons]
      refine Or.inl ?_
      simp only [pageEvents, List.mem_flatMap, List.mem_cons, List.mem_map]
      exact ⟨w, hw, Or.inr ⟨r0, hr0, by simp⟩⟩
    | succ k =>
      have hk2 : rest.get? k = some pg := by simpa using hk
      have := ih (pn + 1) k pg hk2 w hw r0 hr0
      simp only [anonymizeTrace, List.mem_append, List.mem_cons]
      refine Or.inr (Or.inr ?_)
      have harith : pn + 1 + k = pn + (k + 1) := by omega
      rwa [harith] at this

/-- Every pattern is searched on every page. -/
theorem anonymizeTrace_search_mem (patterns : List (List Char)) :
    ∀ (doc : List (List Char → List Rect)) (pn k : Nat)
    (pg : List Char → List Rect), doc.get? k = some pg →
    ∀ w ∈ patterns, REvent.search (pn + k) w ∈ anonymizeTrace patterns pn doc := by
  intro doc
  induction doc with
  | nil => intro pn k pg hk; simp at hk
  | cons pg0 rest ih =>
    intro pn k pg hk w hw
    cases k with
    | zero =>
      simp only [anonymizeTrace, List.mem_append, List.mem_cons]
      refine Or.inl ?_
      simp only [pageEvents, List.mem_flatMap, List.mem_cons, List.mem_map]
      exact ⟨w, hw, Or.inl (by simp)⟩
    | succ k =>
      have hk2 : rest.get? k = some pg := by simpa using hk
      have := ih (pn + 1) k pg hk2 w hw
      simp only [anonymizeTrace, List.mem_append, List.mem_cons]
      refine Or.inr (Or.inr ?_)
      have harith : pn + 1 + k = pn + (k + 1) := by omega
      rwa [harith] at this

/-- C5. The redaction applier processes pages in document order: page
indices never decrease along the engine-call trace; there is exactly one
commit per page, in page order; every call of page `p` precedes the
commit of page `p` and nothing of page `p` follows it (commits are never
deferred or batched across pages); every pattern is searched on every
page; and the marked regions are exactly the engine-reported rectangles
padded by 2 units in each direction with an opaque black fill. -/
theorem C5_redaction_trace (patterns : List (List Char))
    (doc : List (List Char → List Rect)) :
    (anonymizeTrace patterns 0 doc).filter REvent.isCommit =
      (List.range doc.length).map (fun k => REvent.commit k) ∧
    List.Pairwise (fun a b => a.page ≤ b.page) (anonymizeTrace patterns 0 doc) ∧
    (∀ p, p < doc.length → ∃ pre post,
      anonymizeTrace patterns 0 doc = pre ++ REvent.commit p :: post ∧
      (∀ e ∈ pre, e.page ≤ p ∧ (e.isCommit = true → e.page < p)) ∧
      (∀ e ∈ post, p < e.page)) ∧
    (∀ p pg, doc.get? p = some pg → ∀ w ∈ patterns,
      REvent.search p w ∈ anonymizeTrace patterns 0 doc) ∧
    (∀ p pg, doc.get? p = some pg → ∀ w ∈ patterns, ∀ r0 ∈ pg w,
      REvent.mark p (padRect r0) (0, 0, 0) ∈ anonymizeTrace patterns 0 doc) ∧
    (∀ p r f, REvent.mark p r f ∈ anonymizeTrace patterns 0 doc →
      f = (0, 0, 0) ∧ ∃ pg, doc.get? p = some pg ∧
        ∃ w ∈ patterns, ∃ r0 ∈ pg w, r = padRect r0) := by
  refine ⟨?_, anonymizeTrace_pairwise patterns doc 0, ?_, ?_, ?_, ?_⟩
  · simpa using anonymizeTrace_commits patterns doc 0
  · intro p hp
    have := anonymizeTrace_split patterns doc 0 p hp
    simpa using this
  · intro p pg hp w hw
    have := anonymizeTrace_search_mem patterns doc 0 p pg hp w hw
    simpa using this
  · intro p pg hp w hw r0 hr0
    have := anonymizeTrace_mark_complete patterns doc 0 p pg hp w hw r0 hr0
    simpa using this
  · intro p r f hmem
    obtain ⟨hf, k, pg, hk, hkp, rest⟩ := anonymizeTrace_mark_sound patterns doc 0 p r f hmem
    refine ⟨hf, pg, ?_, rest⟩
    rw [hkp]
    simpa using hk

/-- C5 witness: the trace of a concrete two-page document commits page 0
then page 1, exactly once each. -/
theorem C5_redaction_trace_witness :
    (anonymizeTrace [['a']] 0
      [fun _ => [⟨0, 0, 1, 1⟩], fun _ => []]).filter REvent.isCommit =
      [REvent.commit 0, REvent.commit 1] := by
  have h := (C5_redaction_trace [['a']]
    [fun _ => [⟨0, 0, 1, 1⟩], fun _ => []]).1
  simpa using h

namespace EngineText

/-- Characterisation of a pattern match: every pattern character is
present at its slot. -/
theorem matchAt_iff (w : List Char) (page : List (Option Char)) (p : Nat) :
    matchAt w page p = true ↔
      ∀ j, j < w.length → page.getD (p + j) none = some (w.getD j ' ') := by
  simp [matchAt, List.all_eq_true, List.mem_range, beq_iff_eq]

/-- A match of a nonempty pattern starts inside the page. -/
theorem matchAt_pos_lt (w : List Char) (page : List (Option Char)) (p : Nat)
    (hw : w ≠ []) (hm : matchAt w page p = true) : p < page.length := by
  have hwlen : 0 < w.length := List.length_pos.mpr hw
  have h0 := (matchAt_iff w page p).mp hm 0 hwlen
  by_contra hge
  have hlen : page.length ≤ p + 0 := by omega
  rw [List.getD_eq_default _ _ hlen] at h0
  exact Option.noConfusion h0

/-- Greedy completeness of the scan: every match of a nonempty pattern
at a position at or after the scan start overlaps some found
occurrence. -/
theorem searchAux_complete (w : List Char) (page : List (Option Char))
    (hw : w ≠ []) (p i : Nat) (hpi : p ≤ i) (hm : matchAt w page i = true) :
    ∃ s ∈ searchAux w page p, s < i + w.length ∧ i < s + w.length := by
  have hwlen : 1 ≤ w.length := List.length_pos.mpr hw
  have hi : i < page.length := matchAt_pos_lt w page i hw hm
  have hplt : p < page.length := by omega
  rw [searchAux.eq_def]
  rw [dif_neg (by omega)]
  by_cases hmp : matchAt w page p = true
  · rw [if_pos hmp]
    by_cases hclose : i < p + w.length
    · exact ⟨p, by simp, by omega, by omega⟩
    · have hmax : max w.length 1 = w.length := Nat.max_eq_left hwlen
      have hle : p + max w.length 1 ≤ i := by omega
      obtain ⟨s, hs, hb⟩ := searchAux_complete w page hw (p + max w.length 1) i hle hm
      exact ⟨s, List.mem_cons_of_mem _ hs, hb⟩
  · rw [if_neg hmp]
    have hne : i ≠ p := fun h => hmp (h ▸ hm)
    exact searchAux_complete w page hw (p + 1) i (by omega) hm
  termination_by page.length - p
  decreasing_by
    · have : 1 ≤ max w.length 1 := le_max_right _ _
      omega
    · omega

/-- A page without matches yields an empty scan from any position. -/
theorem searchAux_nil_of_no_match (w : List Char) (page : List (Option Char))
    (hnm : ∀ i, matchAt w page i = false) (p : Nat) :
    searchAux w page p = [] := by
  rw [searchAux.eq_def]
  by_cases hple : page.length ≤ p
  · rw [dif_pos hple]
  · rw [dif_neg hple]
    rw [hnm p]
    simp only [Bool.false_eq_true, if_false]
    exact searchAux_nil_of_no_match w page hnm (p + 1)
  termination_by page.length - p
  decreasing_by omega

/-- Slot lookup after a commit: erased inside covered ranges, unchanged
elsewhere, out of range beyond the page. -/
theorem eraseRanges_getD (page : List (Option Char)) (rs : List (Nat × Nat))
    (j : Nat) :
    (eraseRanges page rs).getD j none =
      if j < page.length then
        (if coveredBy rs j then none else page.getD j none)
      else none := by
  rw [eraseRanges, List.getD_eq_getElem?_getD]
  by_cases hj : j < page.length
  · simp [List.getElem?_map, List.getElem?_range, hj]
  · have hnone : (List.range page.length)[j]? = none :=
      List.getElem?_eq_none (by simpa using Nat.le_of_not_lt hj)
    simp [List.getElem?_map, hnone, hj]

/-- Committing an empty set of marked regions leaves the page
unchanged. -/
theorem eraseRanges_nil (page : List (Option Char)) :
    eraseRanges page [] = page := by
  apply List.ext_getElem?
  intro n
  rw [eraseRanges]
  by_cases hn : n < page.length
  · simp only [List.getElem?_map, List.getElem?_range, coveredBy, List.any_nil,
      Bool.false_eq_true, if_false]
    rw [List.getElem?_range hn]  -- if shape mismatch adjust below
    rw [List.getElem?_eq_getElem hn]
    simp [List.getD_eq_getElem?_getD, List.getElem?_eq_getElem hn]
  · have h1 : (List.range page.length).length ≤ n := by simpa using Nat.le_of_not_lt hn
    rw [List.getElem?_eq_none (by simpa using h1)]
    rw [List.getElem?_eq_none (Nat.le_of_not_lt hn)]

end EngineText

namespace EngineText

/-- After one page pass, no pattern of the pass matches anywhere: a
surviving match would have to lie entirely outside the erased regions,
hence be a match of the original page disjoint from every found
occurrence — contradicting greedy completeness. -/
theorem anonymizePage_no_match (patterns : List (List Char))
    (page : List (Option Char)) (w : List Char) (hw : w ∈ patterns)
    (hwne : w ≠ []) (i : Nat) :
    matchAt w (anonymizePage patterns page) i = false := by
  have hwlen : 1 ≤ w.length := List.length_pos.mpr hwne
  by_contra hcon
  have hm : matchAt w (anonymizePage patterns page) i = true := by
    cases h : matchAt w (anonymizePage patterns page) i
    · exact absurd h hcon
    · rfl
  have hchar := (matchAt_iff _ _ _).mp hm
  have hpageA : ∀ j, j < w.length →
      page.getD (i + j) none = some (w.getD j ' ') ∧
      coveredBy (pageRanges patterns page) (i + j) = false := by
    intro j hj
    have hv := hchar j hj
    rw [anonymizePage, eraseRanges_getD] at hv
    by_cases hlt : i + j < page.length
    · rw [if_pos hlt] at hv
      by_cases hcov : coveredBy (pageRanges patterns page) (i + j) = true
      · rw [if_pos hcov] at hv; exact Option.noConfusion hv
      · rw [if_neg hcov] at hv
        exact ⟨hv, Bool.not_eq_true _ |>.mp hcov⟩
    · rw [if_neg hlt] at hv; exact Option.noConfusion hv
  have hmatch : matchAt w page i = true := by
    rw [matchAt_iff]
    intro j hj
    exact (hpageA j hj).1
  obtain ⟨s, hs, hb1, hb2⟩ :=
    searchAux_complete w page hwne 0 i (Nat.zero_le i) hmatch
  have hsearch : search w page = searchAux w page 0 := by
    have : w.isEmpty = false := by cases w with
      | nil => exact absurd rfl hwne
      | cons a l => rfl
    simp [search, this]
  have hidx : coveredBy (pageRanges patterns page) (max s i) = true := by
    rw [coveredBy, List.any_eq_true]
    refine ⟨(s, w.length), ?_, by simp; omega⟩
    rw [pageRanges, List.mem_flatMap]
    refine ⟨w, hw, ?_⟩
    rw [hsearch]
    exact List.mem_map.mpr ⟨s, hs, rfl⟩
  have hj : max s i - i < w.length := by omega
  have hunc := (hpageA (max s i - i) hj).2
  have harith : i + (max s i - i) = max s i := by omega
  rw [harith] at hunc
  rw [hunc] at hidx
  exact Bool.noConfusion hidx

/-- After one page pass, searching any pattern of the pass finds
nothing. -/
theorem search_anonymizePage_eq_nil (patterns : List (List Char))
    (page : List (Option Char)) (w : List Char) (hw : w ∈ patterns) :
    search w (anonymizePage patterns page) = [] := by
  cases hwe : w with
  | nil => rfl
  | cons a l =>
    rw [search]
    have : (a :: l).isEmpty = false := rfl
    rw [this]
    simp only [Bool.false_eq_true, if_false]
    exact searchAux_nil_of_no_match _ _
      (fun i => anonymizePage_no_match patterns page (a :: l) (hwe ▸ hw)
        (by simp) i) 0

/-- The second pass marks no region at all. -/
theorem pageRanges_anonymizePage (patterns : List (List Char))
    (page : List (Option Char)) :
    pageRanges patterns (anonymizePage patterns page) = [] := by
  rw [pageRanges]
  rw [List.flatMap_eq_nil_iff]
  intro w hw
  rw [search_anonymizePage_eq_nil patterns page w hw]
  rfl

end EngineText

/-- C9. Redaction application is idempotent: applying
`_anonymize_document` a second time with the same pattern set finds no
further matches on any already-redacted page (every search comes back
empty, so no region is marked and the commit erases nothing) and leaves
the document content unchanged. -/
theorem C9_redaction_idempotent (patterns : List (List Char))
    (doc : List (List (Option Char))) :
    EngineText.anonymizeDocument patterns
        (EngineText.anonymizeDocument patterns doc) =
      EngineText.anonymizeDocument patterns doc ∧
    ∀ page ∈ EngineText.anonymizeDocument patterns doc, ∀ w ∈ patterns,
      EngineText.search w page = [] := by
  constructor
  · rw [EngineText.anonymizeDocument, EngineText.anonymizeDocument,
      List.map_map]
    apply List.map_congr_left
    intro page _
    simp only [Function.comp_apply]
    have hunf : EngineText.anonymizePage patterns
        (EngineText.anonymizePage patterns page) =
        EngineText.eraseRanges (EngineText.anonymizePage patterns page)
          (EngineText.pageRanges patterns
            (EngineText.anonymizePage patterns page)) := rfl
    rw [hunf, EngineText.pageRanges_anonymizePage, EngineText.eraseRanges_nil]
  · intro page hp w hw
    rw [EngineText.anonymizeDocument, List.mem_map] at hp
    obtain ⟨pg, -, rfl⟩ := hp
    exact EngineText.search_anonymizePage_eq_nil patterns pg w hw

/-- The extracted bit as a division: `(i >> b) % 2 = i / 2^b % 2`. -/
theorem bitOf_eq_div (i b : Nat) : bitOf i b = i / 2 ^ b % 2 := by
  rw [bitOf, Nat.shiftRight_eq_div_pow]

/-- The bit list assembled by `ofBits` is recovered bit by bit. -/
theorem bitOf_ofBits : ∀ (bs : List Bool) (b : Nat),
    bitOf (ofBits bs) b = if bs.getD b false then 1 else 0 := by
  intro bs
  induction bs with
  | nil => intro b; simp [ofBits, bitOf_eq_div, Nat.zero_div]
  | cons c bs ih =>
    intro b
    cases b with
    | zero =>
      rw [bitOf_eq_div]
      simp only [pow_zero, Nat.div_one, ofBits]
      cases c <;> simp [Nat.add_mul_mod_self_left]
    | succ b =>
      rw [bitOf_eq_div]
      have hdiv : ofBits (c :: bs) / 2 ^ (b + 1) = ofBits bs / 2 ^ b := by
        have h2 : (2 : Nat) ^ (b + 1) = 2 * 2 ^ b := by ring
        rw [h2, ← Nat.div_div_eq_div_mul]
        have : ofBits (c :: bs) / 2 = ofBits bs := by
          rw [ofBits]
          cases c <;> simp <;> omega
        rw [this]
      rw [hdiv, ← bitOf_eq_div, ih b]
      simp [List.getD_cons_succ]

/-- `ofBits` stays below `2 ^ length`. -/
theorem ofBits_lt (bs : List Bool) : ofBits bs < 2 ^ bs.length := by
  induction bs with
  | nil => simp [ofBits]
  | cons c bs ih =>
    rw [ofBits]
    have : (2 : Nat) ^ (c :: bs).length = 2 * 2 ^ bs.length := by
      simp [List.length_cons]; ring
    rw [this]
    cases c <;> simp <;> omega

/-- The case loop preserves the word length. -/
theorem applyCaseBits_length (up low : Char → Char) :
    ∀ (ps : List Nat) (chars : List Char) (bitPos i : Nat),
    (applyCaseBits up low chars ps bitPos i).length = chars.length := by
  intro ps
  induction ps with
  | nil => intro chars bitPos i; rfl
  | cons p ps ih =>
    intro chars bitPos i
    rw [applyCaseBits, ih]
    simp

/-- Positions outside the position list are copied verbatim. -/
theorem applyCaseBits_getD_not_mem (up low : Char → Char) :
    ∀ (ps : List Nat) (chars : List Char) (bitPos i j : Nat), j ∉ ps →
    (applyCaseBits up low chars ps bitPos i).getD j ' ' = chars.getD j ' ' := by
  intro ps
  induction ps with
  | nil => intro chars bitPos i j _; rfl
  | cons p ps ih =>
    intro chars bitPos i j hj
    simp only [List.mem_cons, not_or] at hj
    rw [applyCaseBits, ih _ _ _ _ hj.2]
    simp [List.getD_eq_getElem?_getD, List.getElem?_set_ne (Ne.symm hj.1)]

/-- An index lookup that succeeds returns a list member. -/
theorem getElem?_some_mem {l : List Nat} {b j : Nat} (h : l[b]? = some j) :
    j ∈ l := by
  have hb : b < l.length := by
    by_contra hc
    rw [List.getElem?_eq_none (Nat.le_of_not_lt hc)] at h
    exact Option.noConfusion h
  rw [List.getElem?_eq_getElem hb] at h
  exact (Option.some_inj.mp h) ▸ List.getElem_mem hb

/-- The position listed at index `b` receives the upper- or lower-case
form of its original character, selected by bit `bitPos + b`. -/
theorem applyCaseBits_getD_mem (up low : Char → Char) :
    ∀ (ps : List Nat) (chars : List Char) (bitPos i b j : Nat), ps.Nodup →
    ps[b]? = some j → j < chars.length →
    (applyCaseBits up low chars ps bitPos i).getD j ' ' =
      (if bitOf i (bitPos + b) = 1 then up (chars.getD j ' ')
       else low (chars.getD j ' ')) := by
  intro ps
  induction ps with
  | nil => intro chars bitPos i b j _ hb; simp at hb
  | cons p ps ih =>
    intro chars bitPos i b j hnd hb hj
    rw [List.nodup_cons] at hnd
    cases b with
    | zero =>
      simp only [List.getElem?_cons_zero, Option.some_inj] at hb
      subst hb
      rw [applyCaseBits]
      rw [applyCaseBits_getD_not_mem up low ps _ _ _ _ hnd.1]
      rw [Nat.add_zero]
      simp [List.getD_eq_getElem?_getD, List.getElem?_set_self, hj]
    | succ b =>
      simp only [List.getElem?_cons_succ] at hb
      have hmem : j ∈ ps := getElem?_some_mem hb
      have hne : j ≠ p := fun h => hnd.1 (h ▸ hmem)
      rw [applyCaseBits]
      have harith : bitPos + 1 + b = bitPos + (b + 1) := by omega
      rw [ih _ (bitPos + 1) i b j hnd.2 hb (by simpa using hj), harith]
      have hgd : ∀ a : Char, (chars.set p a).getD j ' ' = chars.getD j ' ' := by
        intro a
        simp [List.getD_eq_getElem?_getD, List.getElem?_set_ne (Ne.symm hne)]
      rw [hgd]

/-- When each selected bit picks the case form the character already
has, the loop rewrites every position to its own value and the word is
unchanged. -/
theorem applyCaseBits_fixed (up low : Char → Char) :
    ∀ (ps : List Nat) (chars : List Char) (bitPos i : Nat),
    (∀ b j, ps[b]? = some j →
      (bitOf i (bitPos + b) = 1 → chars.getD j ' ' = up (chars.getD j ' ')) ∧
      (bitOf i (bitPos + b) ≠ 1 → chars.getD j ' ' = low (chars.getD j ' '))) →
    (∀ p ∈ ps, p < chars.length) →
    applyCaseBits up low chars ps bitPos i = chars := by
  intro ps
  induction ps with
  | nil => intro chars bitPos i _ _; rfl
  | cons p ps ih =>
    intro chars bitPos i hsel hlt
    have hp0 := hsel 0 p (by simp)
    have hfix : (if bitOf i (bitPos + 0) = 1
        then up (chars.getD p ' ') else low (chars.getD p ' ')) =
        chars.getD p ' ' := by
      by_cases hbit : bitOf i (bitPos + 0) = 1
      · rw [if_pos hbit]; exact (hp0.1 hbit).symm
      · rw [if_neg hbit]; exact (hp0.2 hbit).symm
    have hpl : p < chars.length := hlt p (by simp)
    have hset : chars.set p (if bitOf i bitPos = 1
        then up (chars.getD p ' ') else low (chars.getD p ' ')) = chars := by
      rw [show bitOf i bitPos = bitOf i (bitPos + 0) from by rw [Nat.add_zero]]
      rw [hfix]
      apply List.ext_getElem?
      intro m
      by_cases hm : m = p
      · subst hm
        rw [List.getElem?_set_self (by omega)]
        rw [List.getD_eq_getElem?_getD, List.getElem?_eq_getElem hpl]
        simp [List.getElem?_eq_getElem hpl]
      · rw [List.getElem?_set_ne (Ne.symm hm)]
    rw [applyCaseBits, hset]
    refine ih chars (bitPos + 1) i ?_ ?_
    · intro b j hb
      have := hsel (b + 1) j (by simpa using hb)
      have harith : bitPos + (b + 1) = bitPos + 1 + b := by omega
      rw [harith] at this
      exact this
    · intro q hq
      exact hlt q (by simp [hq])

/-- A bit reads `1` exactly when `testBit` is set. -/
theorem testBit_iff_bitOf (i b : Nat) : i.testBit b = true ↔ bitOf i b = 1 := by
  rw [bitOf_eq_div, Nat.testBit_to_div_mod]
  simp

/-- The non-ASCII position list has no duplicates. -/
theorem nonAsciiPositions_nodup (w : List Char) :
    (nonAsciiPositions w).Nodup :=
  (List.nodup_range _).filter _

/-- Every non-ASCII position indexes into the word. -/
theorem nonAsciiPositions_lt (w : List Char) :
    ∀ p ∈ nonAsciiPositions w, p < w.length := by
  intro p hp
  rw [nonAsciiPositions] at hp
  simpa using List.mem_of_mem_filter hp

/-- A word holds a non-ASCII character exactly when it has a non-ASCII
position. -/
theorem any_isNonAscii_iff (w : List Char) :
    w.any isNonAscii = true ↔ nonAsciiPositions w ≠ [] := by
  rw [List.any_eq_true]
  constructor
  · rintro ⟨c, hc, hna⟩
    obtain ⟨i, hi, rfl⟩ := List.mem_iff_getElem.mp hc
    intro hnil
    have : i ∈ nonAsciiPositions w := by
      rw [nonAsciiPositions, List.mem_filter]
      refine ⟨List.mem_range.mpr hi, ?_⟩
      rw [List.getD_eq_getElem?_getD, List.getElem?_eq_getElem hi]
      simpa using hna
    rw [hnil] at this
    simp at this
  · intro hne
    obtain ⟨p, hp⟩ := List.exists_mem_of_ne_nil _ hne
    have hmem := hp
    rw [nonAsciiPositions, List.mem_filter, List.mem_range] at hmem
    refine ⟨w.getD p ' ', ?_, hmem.2⟩
    rw [List.getD_eq_getElem?_getD, List.getElem?_eq_getElem hmem.1]
    exact List.getElem_mem hmem.1

/-- Distinct variant indices below `2 ^ k` produce distinct variants
when upper and lower case differ at every non-ASCII position. -/
theorem applyCaseBits_inj (up low : Char → Char) (w : List Char)
    (h1 : ∀ p ∈ nonAsciiPositions w, up (w.getD p ' ') ≠ low (w.getD p ' '))
    (i1 i2 : Nat) (hi1 : i1 < 2 ^ (nonAsciiPositions w).length)
    (hi2 : i2 < 2 ^ (nonAsciiPositions w).length)
    (heq : applyCaseBits up low w (nonAsciiPositions w) 0 i1 =
      applyCaseBits up low w (nonAsciiPositions w) 0 i2) : i1 = i2 := by
  apply Nat.eq_of_testBit_eq
  intro b
  by_cases hb : b < (nonAsciiPositions w).length
  · obtain ⟨j, hj⟩ : ∃ j, (nonAsciiPositions w)[b]? = some j :=
      ⟨_, List.getElem?_eq_getElem hb⟩
    have hjmem : j ∈ nonAsciiPositions w := getElem?_some_mem hj
    have hjlt : j < w.length := nonAsciiPositions_lt w j hjmem
    have e1 := applyCaseBits_getD_mem up low (nonAsciiPositions w) w 0 i1 b j
      (nonAsciiPositions_nodup w) hj hjlt
    have e2 := applyCaseBits_getD_mem up low (nonAsciiPositions w) w 0 i2 b j
      (nonAsciiPositions_nodup w) hj hjlt
    rw [heq] at e1
    have hif := e1.symm.trans e2
    have hne := h1 j hjmem
    by_cases b1 : bitOf i1 (0 + b) = 1 <;> by_cases b2 : bitOf i2 (0 + b) = 1
    · rw [(testBit_iff_bitOf i1 b).mpr (by simpa using b1),
        (testBit_iff_bitOf i2 b).mpr (by simpa using b2)]
    · rw [if_pos b1, if_neg b2] at hif
      exact absurd hif hne
    · rw [if_neg b1, if_pos b2] at hif
      exact absurd hif.symm hne
    · have hb1 : i1.testBit b = false := by
        cases h : i1.testBit b
        · rfl
        · exact absurd ((testBit_iff_bitOf i1 b).mp h) (by simpa using b1)
      have hb2 : i2.testBit b = false := by
        cases h : i2.testBit b
        · rfl
        · exact absurd ((testBit_iff_bitOf i2 b).mp h) (by simpa using b2)
      rw [hb1, hb2]
  · have hle : 2 ^ (nonAsciiPositions w).length ≤ 2 ^ b :=
      Nat.pow_le_pow_right (by omega) (by omega)
    rw [Nat.testBit_eq_false_of_lt (by omega),
      Nat.testBit_eq_false_of_lt (by omega)]

/-- The word itself appears among its case variations whenever each
non-ASCII character already is its own upper- or lower-case form. -/
theorem self_mem_generate_case_variations (up low : Char → Char)
    (w : List Char)
    (h2 : ∀ p ∈ nonAsciiPositions w, w.getD p ' ' = up (w.getD p ' ') ∨
      w.getD p ' ' = low (w.getD p ' ')) :
    w ∈ generate_case_variations up low w := by
  rw [generate_case_variations]
  by_cases hps : (nonAsciiPositions w).isEmpty
  · simp [hps]
  · simp only [hps, Bool.false_eq_true, if_false, List.mem_map, List.mem_range]
    set ps := nonAsciiPositions w with hpsdef
    set k := ps.length with hk
    set bs := (List.range k).map
      (fun b => decide (w.getD (ps.getD b 0) ' ' = up (w.getD (ps.getD b 0) ' ')))
      with hbs
    refine ⟨ofBits bs, ?_, ?_⟩
    · have := ofBits_lt bs
      simpa [hbs] using this
    · apply applyCaseBits_fixed
      · intro b j hbj
        have hblt : b < k := by
          by_contra hc
          rw [List.getElem?_eq_none (by simpa [hk] using Nat.le_of_not_lt hc)] at hbj
          exact Option.noConfusion hbj
        have hjgd : ps.getD b 0 = j := by
          rw [List.getD_eq_getElem?_getD, hbj]
          rfl
        have hjmem : j ∈ ps := getElem?_some_mem hbj
        have hbit : bitOf (ofBits bs) (0 + b) =
            if w.getD j ' ' = up (w.getD j ' ') then 1 else 0 := by
          rw [Nat.zero_add, bitOf_ofBits]
          have hget : bs.getD b false =
              decide (w.getD j ' ' = up (w.getD j ' ')) := by
            rw [hbs, List.getD_eq_getElem?_getD, List.getElem?_map]
            rw [List.getElem?_range hblt]
            show decide (w.getD (ps.getD b 0) ' ' = up (w.getD (ps.getD b 0) ' ')) = _
            rw [hjgd]
          rw [hget]
          by_cases hcase : w.getD j ' ' = up (w.getD j ' ') <;> simp [hcase]
        constructor
        · intro hone
          rw [hbit] at hone
          by_cases hcase : w.getD j ' ' = up (w.getD j ' ')
          · exact hcase
          · rw [if_neg hcase] at hone; omega
        · intro hnone
          rw [hbit] at hnone
          by_cases hcase : w.getD j ' ' = up (w.getD j ' ')
          · rw [if_pos hcase] at hnone; omega
          · rcases h2 j hjmem with h | h
            · exact absurd h hcase
            · exact h
      · exact nonAsciiPositions_lt w

/-- The variation list of a word with at least one non-ASCII position
has exactly `2 ^ k` distinct elements when upper and lower case differ
at every such position. -/
theorem generate_case_variations_card (up low : Char → Char) (w : List Char)
    (h1 : ∀ p ∈ nonAsciiPositions w, up (w.getD p ' ') ≠ low (w.getD p ' ')) :
    (generate_case_variations up low w).toFinset.card =
      2 ^ (nonAsciiPositions w).length := by
  rw [generate_case_variations]
  by_cases hps : (nonAsciiPositions w).isEmpty
  · have : (nonAsciiPositions w).length = 0 := by
      rw [List.isEmpty_iff] at hps
      simp [hps]
    simp [hps, this]
  · simp only [hps, Bool.false_eq_true, if_false]
    have hnd : ((List.range (2 ^ (nonAsciiPositions w).length)).map
        (fun i => applyCaseBits up low w (nonAsciiPositions w) 0 i)).Nodup := by
      refine List.Nodup.map_on ?_ (List.nodup_range _)
      intro i1 hi1 i2 hi2 heq
      rw [List.mem_range] at hi1 hi2
      exact applyCaseBits_inj up low w h1 i1 i2 hi1 hi2 heq
    rw [List.toFinset_card_of_nodup hnd]
    simp

/-- The full expansion of a single word. -/
theorem expand_single_eq (up low : Char → Char) (w : List Char) :
    expand_non_ascii_variations up low [w] =
      if w.any isNonAscii then
        ({w} : Finset (List Char)) ∪ (generate_case_variations up low w).toFinset
      else {w} := by
  rw [expand_non_ascii_variations]
  simp only [List.foldl_cons, List.foldl_nil, List.toFinset_cons,
    List.toFinset_nil]
  by_cases h : w.any isNonAscii <;> simp [h]

/-- Duplicated input terms do not change the expansion. -/
theorem expand_dup (up low : Char → Char) (u : List Char)
    (ws : List (List Char)) :
    expand_non_ascii_variations up low (u :: u :: ws) =
      expand_non_ascii_variations up low (u :: ws) := by
  rw [expand_non_ascii_variations, expand_non_ascii_variations]
  simp only [List.foldl_cons, List.toFinset_cons, Finset.insert_idem]
  congr 1
  by_cases h : u.any isNonAscii <;>
    simp [h, Finset.union_assoc, Finset.union_self]

/-- C2 amended: provided every non-ASCII code point of the term has
distinct upper- and lower-case forms and is itself one of the two, the
expansion of the term has exactly `2 ^ k` distinct variants (`k` the
number of non-ASCII positions; `k = 0` gives exactly the term), every
variant differs from the term only at the non-ASCII positions where it
carries the upper- or lower-case form, and duplicated input terms do not
duplicate output variants.  (Without the proviso the count fails: a
caseless code point such as 中 collapses its two variants — see the
counterexample.) -/
theorem C2_amended (up low : Char → Char) (w : List Char)
    (h1 : ∀ p ∈ nonAsciiPositions w, up (w.getD p ' ') ≠ low (w.getD p ' '))
    (h2 : ∀ p ∈ nonAsciiPositions w, w.getD p ' ' = up (w.getD p ' ') ∨
      w.getD p ' ' = low (w.getD p ' ')) :
    (expand_non_ascii_variations up low [w]).card =
      2 ^ (nonAsciiPositions w).length ∧
    (nonAsciiPositions w = [] →
      expand_non_ascii_variations up low [w] = {w}) ∧
    (∀ v ∈ expand_non_ascii_variations up low [w],
      v.length = w.length ∧
      (∀ j, j < w.length → j ∉ nonAsciiPositions w →
        v.getD j ' ' = w.getD j ' ') ∧
      (∀ p ∈ nonAsciiPositions w,
        v.getD p ' ' = up (w.getD p ' ') ∨ v.getD p ' ' = low (w.getD p ' '))) ∧
    (∀ (u : List Char) (ws : List (List Char)),
      expand_non_ascii_variations up low (u :: u :: ws) =
        expand_non_ascii_variations up low (u :: ws)) := by
  refine ⟨?_, ?_, ?_, fun u ws => expand_dup up low u ws⟩
  · rw [expand_single_eq]
    by_cases ha : w.any isNonAscii = true
    · rw [if_pos ha]
      have hwmem : w ∈ (generate_case_variations up low w).toFinset :=
        List.mem_toFinset.mpr (self_mem_generate_case_variations up low w h2)
      rw [Finset.union_eq_right.mpr (Finset.singleton_subset_iff.mpr hwmem)]
      exact generate_case_variations_card up low w h1
    · rw [if_neg ha]
      have hps : nonAsciiPositions w = [] := by
        by_contra hc
        exact ha ((any_isNonAscii_iff w).mpr hc)
      simp [hps]
  · intro hps
    rw [expand_single_eq]
    have ha : w.any isNonAscii = false := by
      cases h : w.any isNonAscii
      · rfl
      · exact absurd ((any_isNonAscii_iff w).mp h) (by simp [hps])
    rw [ha]
    simp
  · intro v hv
    rw [expand_single_eq] at hv
    have hself : w.length = w.length ∧
        (∀ j, j < w.length → j ∉ nonAsciiPositions w →
          w.getD j ' ' = w.getD j ' ') ∧
        (∀ p ∈ nonAsciiPositions w,
          w.getD p ' ' = up (w.getD p ' ') ∨
          w.getD p ' ' = low (w.getD p ' ')) :=
      ⟨rfl, fun j _ _ => rfl, h2⟩
    by_cases ha : w.any isNonAscii = true
    · rw [if_pos ha] at hv
      rcases Finset.mem_union.mp hv with hv | hv
      · have : v = w := by simpa using hv
        subst this
        exact hself
      · have hvl := List.mem_toFinset.mp hv
        rw [generate_case_variations] at hvl
        have hps : ¬(nonAsciiPositions w).isEmpty = true := by
          have := (any_isNonAscii_iff w).mp ha
          simpa [List.isEmpty_iff] using this
        rw [if_neg hps] at hvl
        simp only [List.mem_map, List.mem_range] at hvl
        obtain ⟨i, -, rfl⟩ := hvl
        refine ⟨applyCaseBits_length up low _ w 0 i, ?_, ?_⟩
        · intro j _ hj
          exact applyCaseBits_getD_not_mem up low _ w 0 i j hj
        · intro p hp
          obtain ⟨b, hb, hpb⟩ := List.mem_iff_getElem.mp hp
          have hb? : (nonAsciiPositions w)[b]? = some p := by
            rw [List.getElem?_eq_getElem hb, hpb]
          have := applyCaseBits_getD_mem up low (nonAsciiPositions w) w 0 i b p
            (nonAsciiPositions_nodup w) hb? (nonAsciiPositions_lt w p hp)
          rw [this]
          by_cases hbit : bitOf i (0 + b) = 1
          · rw [if_pos hbit]; exact Or.inl rfl
          · rw [if_neg hbit]; exact Or.inr rfl
    · rw [if_neg ha] at hv
      have : v = w := by simpa using hv
      subst this
      exact hself

/-- C2 counterexample: the term `"中"` has exactly one code point above
the ASCII range (`k = 1`), yet its expansion holds a single variant, not
`2 ^ 1 = 2`: the CJK ideograph is caseless, so both case selections
produce the same string. -/
theorem C2_counterexample :
    (nonAsciiPositions ['中']).length = 1 ∧
    (expand_non_ascii_variations pyUpper pyLower [['中']]).card = 1 := by
  constructor <;> decide

/-- C2 witness: for the term `"Ω"` (one non-ASCII position, with
distinct case forms) the expansion has exactly `2 ^ 1` variants. -/
theorem C2_amended_witness :
    (expand_non_ascii_variations pyUpper pyLower [['Ω']]).card =
      2 ^ (nonAsciiPositions ['Ω']).length :=
  (C2_amended pyUpper pyLower ['Ω'] (by decide) (by decide)).1

/-- No nonempty pattern occurs in the empty text. -/
theorem occursCI_nil (fold : Char → Char) (t : List Char) (ht : t ≠ []) :
    occursCI fold t [] = false := by
  cases t with
  | nil => exact absurd rfl ht
  | cons a t => rfl

/-- A nonempty pattern cannot start on a character whose fold avoids the
pattern's folds. -/
theorem ciPrefix_avoid_head (fold : Char → Char) (t v Z : List Char)
    (hav : ∀ c ∈ v, fold c ∉ t.map fold) (ht : t ≠ []) (hv : v ≠ []) :
    ciPrefix fold t (v ++ Z) = false := by
  cases t with
  | nil => exact absurd rfl ht
  | cons a t' =>
    cases v with
    | nil => exact absurd rfl hv
    | cons c v' =>
      by_cases h : fold c = fold a
      · exact absurd (List.mem_map.mpr ⟨a, by simp, h.symm⟩)
          (hav c (by simp))
      · show ((fold c = fold a : Bool) && ciPrefix fold t' (v' ++ Z)) = false
        simp [h]

/-- Prepending avoided text does not change occurrence. -/
theorem occursCI_avoid_append (fold : Char → Char) (t : List Char)
    (ht : t ≠ []) :
    ∀ (v Z : List Char), (∀ c ∈ v, fold c ∉ t.map fold) →
    occursCI fold t (v ++ Z) = occursCI fold t Z := by
  intro v
  induction v with
  | nil => intro Z _; rfl
  | cons c v' ih =>
    intro Z hav
    show (ciPrefix fold t ((c :: v') ++ Z) || occursCI fold t (v' ++ Z)) = _
    rw [ciPrefix_avoid_head fold t (c :: v') Z hav ht (by simp)]
    rw [Bool.false_or]
    exact ih Z (fun d hd => hav d (by simp [hd]))

/-- A pattern prefix that reaches through a block into avoided text must
already hold on the block alone. -/
theorem ciPrefix_through_avoid (fold : Char → Char) (v M : List Char)
    (hvne : v ≠ []) :
    ∀ (t B : List Char), (∀ c ∈ v, fold c ∉ t.map fold) →
    ciPrefix fold t (B ++ v ++ M) = true → ciPrefix fold t B = true := by
  intro t
  induction t with
  | nil => intro B _ _; rfl
  | cons a t' ih =>
    intro B hav hp
    cases B with
    | nil =>
      rw [List.nil_append] at hp
      rw [ciPrefix_avoid_head fold (a :: t') v M hav (by simp) hvne] at hp
      exact Bool.noConfusion hp
    | cons b B' =>
      have hp2 : ((fold b = fold a : Bool) &&
          ciPrefix fold t' (B' ++ v ++ M)) = true := hp
      rw [Bool.and_eq_true] at hp2
      have hav' : ∀ c ∈ v, fold c ∉ t'.map fold := by
        intro c hc hmem
        exact hav c hc (by simp [List.mem_map] at hmem ⊢; tauto)
      have := ih B' hav' hp2.2
      show ((fold b = fold a : Bool) && ciPrefix fold t' B') = true
      rw [Bool.and_eq_true]
      exact ⟨hp2.1, this⟩

/-- An occurrence in `B ++ v ++ M` with `v` avoided lies in `B` or in
`M`. -/
theorem occursCI_block_append (fold : Char → Char) (t v M : List Char)
    (ht : t ≠ []) (hvne : v ≠ []) (hav : ∀ c ∈ v, fold c ∉ t.map fold) :
    ∀ B : List Char, occursCI fold t (B ++ v ++ M) = true →
    occursCI fold t B = true ∨ occursCI fold t M = true := by
  intro B
  induction B with
  | nil =>
    intro h
    rw [List.nil_append, occursCI_avoid_append fold t ht v M hav] at h
    exact Or.inr h
  | cons c B' ih =>
    intro h
    have h2 : (ciPrefix fold t ((c :: B') ++ v ++ M) ||
        occursCI fold t (B' ++ v ++ M)) = true := h
    rw [Bool.or_eq_true] at h2
    rcases h2 with h2 | h2
    · have := ciPrefix_through_avoid fold v M hvne t (c :: B') hav h2
      refine Or.inl ?_
      show (ciPrefix fold t (c :: B') || occursCI fold t B') = true
      rw [this, Bool.true_or]
    · rcases ih h2 with h3 | h3
      · refine Or.inl ?_
        show (ciPrefix fold t (c :: B') || occursCI fold t B') = true
        rw [h3, Bool.or_true]
      · exact Or.inr h3

/-- A pattern prefix on substituted text whose marker is avoided already
holds on the original text. -/
theorem ciPrefix_replaceAux (fold : Char → Char) (u marker : List Char)
    (hm : marker ≠ []) :
    ∀ (fuel : Nat) (s wpre : List Char), s.length ≤ fuel →
    (∀ c ∈ marker, fold c ∉ wpre.map fold) →
    ciPrefix fold wpre (replaceAllCIAux fold u marker fuel s) = true →
    ciPrefix fold wpre s = true := by
  intro fuel
  induction fuel with
  | zero =>
    intro s wpre hfuel _ h
    have : s = [] := List.eq_nil_of_length_eq_zero (by omega)
    subst this
    exact h
  | succ fuel ih =>
    intro s wpre hfuel hav h
    cases s with
    | nil => exact h
    | cons c rest =>
      rw [replaceAllCIAux] at h
      by_cases hcond : (!u.isEmpty && ciPrefix fold u (c :: rest)) = true
      · rw [if_pos hcond] at h
        cases wpre with
        | nil => rfl
        | cons a w' =>
          rw [ciPrefix_avoid_head fold (a :: w') marker _ hav (by simp) hm] at h
          exact Bool.noConfusion h
      · rw [if_neg hcond] at h
        cases wpre with
        | nil => rfl
        | cons a w' =>
          have h2 : ((fold c = fold a : Bool) &&
              ciPrefix fold w' (replaceAllCIAux fold u marker fuel rest)) = true := h
          rw [Bool.and_eq_true] at h2
          have hav' : ∀ d ∈ marker, fold d ∉ w'.map fold := by
            intro d hd hmem
            exact hav d hd (by simp [List.mem_map] at hmem ⊢; tauto)
          have hrest : rest.length ≤ fuel := by
            simp only [List.length_cons] at hfuel; omega
          have := ih rest w' hrest hav' h2.2
          show ((fold c = fold a : Bool) && ciPrefix fold w' rest) = true
          rw [Bool.and_eq_true]
          exact ⟨h2.1, this⟩

/-- After a global substitution of `t` by an avoided marker, `t` no
longer occurs. -/
theorem occursCI_replaceAux_self (fold : Char → Char) (t marker : List Char)
    (ht : t ≠ []) (hm : marker ≠ [])
    (hav : ∀ c ∈ marker, fold c ∉ t.map fold) :
    ∀ (fuel : Nat) (s : List Char), s.length ≤ fuel →
    occursCI fold t (replaceAllCIAux fold t marker fuel s) = false := by
  intro fuel
  induction fuel with
  | zero =>
    intro s hfuel
    have : s = [] := List.eq_nil_of_length_eq_zero (by omega)
    subst this
    exact occursCI_nil fold t ht
  | succ fuel ih =>
    intro s hfuel
    cases s with
    | nil =>
      show occursCI fold t [] = false
      exact occursCI_nil fold t ht
    | cons c rest =>
      have hrest : rest.length ≤ fuel := by
        simp only [List.length_cons] at hfuel; omega
      rw [replaceAllCIAux]
      by_cases hcond : (!t.isEmpty && ciPrefix fold t (c :: rest)) = true
      · rw [if_pos hcond]
        rw [occursCI_avoid_append fold t ht marker _ hav]
        refine ih (rest.drop (t.length - 1)) ?_
        have := List.length_drop (t.length - 1) rest
        omega
      · rw [if_neg hcond]
        have htne : (!t.isEmpty) = true := by
          cases t with
          | nil => exact absurd rfl ht
          | cons a t' => rfl
        have hciff : ciPrefix fold t (c :: rest) = false := by
          cases hcp : ciPrefix fold t (c :: rest)
          · rfl
          · exact absurd (by rw [htne, hcp]; rfl) hcond
        show (ciPrefix fold t (c :: replaceAllCIAux fold t marker fuel rest) ||
          occursCI fold t (replaceAllCIAux fold t marker fuel rest)) = false
        rw [Bool.or_eq_false_iff]
        constructor
        · cases t with
          | nil => exact absurd rfl ht
          | cons a t' =>
            cases hcp2 : ciPrefix fold (a :: t')
                (c :: replaceAllCIAux fold (a :: t') marker fuel rest)
            · rfl
            · have h2 : ((fold c = fold a : Bool) && ciPrefix fold t'
                  (replaceAllCIAux fold (a :: t') marker fuel rest)) = true := hcp2
              rw [Bool.and_eq_true] at h2
              have hav' : ∀ d ∈ marker, fold d ∉ t'.map fold := by
                intro d hd hmem
                exact hav d hd (by simp [List.mem_map] at hmem ⊢; tauto)
              have := ciPrefix_replaceAux fold (a :: t') marker hm fuel rest t'
                hrest hav' h2.2
              have hfull : ciPrefix fold (a :: t') (c :: rest) = true := by
                show ((fold c = fold a : Bool) && ciPrefix fold t' rest) = true
                rw [Bool.and_eq_true]
                exact ⟨h2.1, this⟩
              rw [hfull] at hciff
              exact Bool.noConfusion hciff
        · exact ih rest hrest

/-- Absence of occurrences passes to any suffix. -/
theorem occursCI_drop (fold : Char → Char) (t : List Char) :
    ∀ (s : List Char) (k : Nat), occursCI fold t s = false →
    occursCI fold t (s.drop k) = false := by
  intro s
  induction s with
  | nil => intro k h; simpa using h
  | cons c rest ih =>
    intro k h
    cases k with
    | zero => exact h
    | succ k =>
      have h2 : (ciPrefix fold t (c :: rest) || occursCI fold t rest) = false := h
      rw [Bool.or_eq_false_iff] at h2
      exact ih k h2.2

/-- A text without occurrences of `t` keeps none after substituting any
pattern `u` by an avoided marker. -/
theorem occursCI_replaceAux_stable (fold : Char → Char)
    (t u marker : List Char) (ht : t ≠ []) (hm : marker ≠ [])
    (hav : ∀ c ∈ marker, fold c ∉ t.map fold) :
    ∀ (fuel : Nat) (s : List Char), s.length ≤ fuel →
    occursCI fold t s = false →
    occursCI fold t (replaceAllCIAux fold u marker fuel s) = false := by
  intro fuel
  induction fuel with
  | zero =>
    intro s hfuel _
    have : s = [] := List.eq_nil_of_length_eq_zero (by omega)
    subst this
    exact occursCI_nil fold t ht
  | succ fuel ih =>
    intro s hfuel hno
    cases s with
    | nil =>
      show occursCI fold t [] = false
      exact occursCI_nil fold t ht
    | cons c rest =>
      have hrest : rest.length ≤ fuel := by
        simp only [List.length_cons] at hfuel; omega
      have hno2 : (ciPrefix fold t (c :: rest) || occursCI fold t rest) = false := hno
      rw [Bool.or_eq_false_iff] at hno2
      rw [replaceAllCIAux]
      by_cases hcond : (!u.isEmpty && ciPrefix fold u (c :: rest)) = true
      · rw [if_pos hcond]
        rw [occursCI_avoid_append fold t ht marker _ hav]
        refine ih (rest.drop (u.length - 1)) ?_ ?_
        · have := List.length_drop (u.length - 1) rest
          omega
        · exact occursCI_drop fold t rest (u.length - 1) hno2.2
      · rw [if_neg hcond]
        show (ciPrefix fold t (c :: replaceAllCIAux fold u marker fuel rest) ||
          occursCI fold t (replaceAllCIAux fold u marker fuel rest)) = false
        rw [Bool.or_eq_false_iff]
        constructor
        · cases t with
          | nil => exact absurd rfl ht
          | cons a t' =>
            cases hcp2 : ciPrefix fold (a :: t')
                (c :: replaceAllCIAux fold u marker fuel rest)
            · rfl
            · have h2 : ((fold c = fold a : Bool) && ciPrefix fold t'
                  (replaceAllCIAux fold u marker fuel rest)) = true := hcp2
              rw [Bool.and_eq_true] at h2
              have hav' : ∀ d ∈ marker, fold d ∉ t'.map fold := by
                intro d hd hmem
                exact hav d hd (by simp [List.mem_map] at hmem ⊢; tauto)
              have := ciPrefix_replaceAux fold u marker hm fuel rest t'
                hrest hav' h2.2
              have hfull : ciPrefix fold (a :: t') (c :: rest) = true := by
                show ((fold c = fold a : Bool) && ciPrefix fold t' rest) = true
                rw [Bool.and_eq_true]
                exact ⟨h2.1, this⟩
              rw [hfull] at hno2
              exact Bool.noConfusion hno2.1
        · exact ih rest hrest hno2.2

/-- Absence of occurrences of `t` survives the whole per-page term
loop. -/
theorem occursCI_redactText_stable (fold : Char → Char) (t : List Char)
    (ht : t ≠ []) (hav : ∀ c ∈ redactMarker, fold c ∉ t.map fold) :
    ∀ (terms : List (List Char)) (s : List Char), occursCI fold t s = false →
    occursCI fold t (redactText fold terms s) = false := by
  intro terms
  induction terms with
  | nil => intro s h; exact h
  | cons u us ih =>
    intro s h
    rw [redactText, List.foldl_cons]
    refine ih _ ?_
    rw [replaceAllCI]
    exact occursCI_replaceAux_stable fold t u redactMarker ht (by decide)
      hav s.length s (le_refl _) h

/-- After the per-page term loop, no sensitive term occurs in the
redacted text, provided each term is nonempty and avoids the marker's
character folds. -/
theorem occursCI_redactText (fold : Char → Char) :
    ∀ (terms : List (List Char)) (s : List Char),
    (∀ t ∈ terms, t ≠ [] ∧ ∀ c ∈ redactMarker, fold c ∉ t.map fold) →
    ∀ t ∈ terms, occursCI fold t (redactText fold terms s) = false := by
  intro terms
  induction terms with
  | nil => intro s _ t htm; simp at htm
  | cons u us ih =>
    intro s hterms t htm
    rw [redactText, List.foldl_cons]
    rcases List.mem_cons.mp htm with rfl | htm'
    · have hu := hterms t (by simp)
      refine occursCI_redactText_stable fold t hu.1 hu.2 us _ ?_
      rw [replaceAllCI]
      exact occursCI_replaceAux_self fold t redactMarker hu.1 (by decide)
        hu.2 s.length s (le_refl _)
    · exact ih _ (fun v hv => hterms v (by simp [hv])) t htm'

/-- Digits of a number below ten are decimal digit characters. -/
theorem digitChar_mem_digits (m : Nat) (hm : m < 10) :
    Nat.digitChar m ∈ "0123456789".data := by
  interval_cases m <;> decide

/-- Every character of the decimal rendering is a digit character. -/
theorem natToDecAux_mem_digits :
    ∀ (fuel n : Nat), ∀ c ∈ natToDecAux fuel n, c ∈ "0123456789".data := by
  intro fuel
  induction fuel with
  | zero => intro n c hc; simp [natToDecAux] at hc
  | succ fuel ih =>
    intro n c hc
    rw [natToDecAux] at hc
    by_cases hn : n < 10
    · rw [if_pos hn] at hc
      simp only [List.mem_singleton] at hc
      subst hc
      exact digitChar_mem_digits n hn
    · rw [if_neg hn] at hc
      rcases List.mem_append.mp hc with hc | hc
      · exact ih (n / 10) c hc
      · simp only [List.mem_singleton] at hc
        subst hc
        exact digitChar_mem_digits (n % 10) (Nat.mod_lt n (by omega))

/-- Every character the page heading inserts comes from the fixed
framing alphabet. -/
theorem headingFor_mem_alphabet (m : Nat) :
    ∀ c ∈ headingFor m, c ∈ mdFrameAlphabet := by
  intro c hc
  rw [headingFor] at hc
  have hsub1 : ∀ d ∈ "## Page ".data, d ∈ mdFrameAlphabet := by decide
  have hsub2 : ∀ d ∈ "0123456789".data, d ∈ mdFrameAlphabet := by decide
  have hsub3 : ∀ d ∈ ['\n'], d ∈ mdFrameAlphabet := by decide
  rcases List.mem_append.mp hc with hc | hc
  · rcases List.mem_append.mp hc with hc | hc
    · exact hsub1 c hc
    · exact hsub2 c (natToDecAux_mem_digits (m + 1) m c hc)
  · have hcn : c = '\n' := by
      rcases List.mem_cons.mp hc with h | h
      · exact h
      · simpa using h
    subst hcn
    exact hsub3 '\n' (by simp)

/-- The markdown sections in structural form: one heading-fronted,
blank-line-terminated section per page, in page order. -/
theorem mdSections_eq_join (fold : Char → Char) (terms : List (List Char)) :
    ∀ (pages : List (List Char)) (n : Nat),
    mdSections fold terms n pages =
      ((List.enumFrom n pages).map (fun q =>
        headingFor (q.1 + 1) ++ redactText fold terms q.2 ++ ['\n', '\n'])).flatten := by
  intro pages
  induction pages with
  | nil => intro n; rfl
  | cons txt rest ih =>
    intro n
    rw [mdSections, ih (n + 1)]
    simp [List.enumFrom, List.append_assoc]

/-- No term occurs anywhere in the assembled markdown, provided each
term is nonempty and none of its characters folds onto a character of
the marker or the page headings. -/
theorem occursCI_mdSections (fold : Char → Char) (terms : List (List Char))
    (hterms : ∀ t ∈ terms, t ≠ [] ∧
      ∀ c ∈ mdFrameAlphabet, fold c ∉ t.map fold) :
    ∀ (pages : List (List Char)) (n : Nat), ∀ t ∈ terms,
    occursCI fold t (mdSections fold terms n pages) = false := by
  intro pages
  induction pages with
  | nil =>
    intro n t htm
    exact occursCI_nil fold t (hterms t htm).1
  | cons txt rest ih =>
    intro n t htm
    obtain ⟨htne, halph⟩ := hterms t htm
    have havH : ∀ c ∈ headingFor (n + 1), fold c ∉ t.map fold :=
      fun c hc => halph c (headingFor_mem_alphabet (n + 1) c hc)
    have havM : ∀ c ∈ redactMarker, fold c ∉ t.map fold := by
      intro c hc
      refine halph c ?_
      rw [mdFrameAlphabet]
      simp [hc]
    have havN : ∀ c ∈ ['\n', '\n'], fold c ∉ t.map fold := by
      intro c hc
      refine halph c ?_
      have : c = '\n' := by
        rcases List.mem_cons.mp hc with h | h
        · exact h
        · simpa using h
      subst this
      decide
    rw [mdSections]
    rw [List.append_assoc, List.append_assoc]
    rw [occursCI_avoid_append fold t htne (headingFor (n + 1)) _ havH]
    rw [show redactText fold terms txt ++
        (['\n', '\n'] ++ mdSections fold terms (n + 1) rest) =
        redactText fold terms txt ++ ['\n', '\n'] ++
          mdSections fold terms (n + 1) rest from
      (List.append_assoc _ _ _).symm]
    cases hocc : occursCI fold t (redactText fold terms txt ++ ['\n', '\n'] ++
        mdSections fold terms (n + 1) rest)
    · rfl
    · exfalso
      have hsplit := occursCI_block_append fold t ['\n', '\n']
        (mdSections fold terms (n + 1) rest) htne (by simp) havN
        (redactText fold terms txt) hocc
      rcases hsplit with h | h
      · have hterms2 : ∀ v ∈ terms, v ≠ [] ∧
            ∀ c ∈ redactMarker, fold c ∉ v.map fold := by
          intro v hv
          obtain ⟨hv1, hv2⟩ := hterms v hv
          refine ⟨hv1, fun c hc => hv2 c ?_⟩
          rw [mdFrameAlphabet]
          simp [hc]
        rw [occursCI_redactText fold terms txt hterms2 t htm] at h
        exact Bool.noConfusion h
      · rw [ih (n + 1) t htm] at h
        exact Bool.noConfusion h

/-- C3 amended: the markdown producer performs one global
case-insensitive literal substitution per original sensitive term on
each page text (in term order, each replacing within the previous
output) and concatenates the per-page sections, each headed by its
one-based page-number heading, in page order; the resulting markdown
contains no case-insensitive match of any term, provided each term is
nonempty and none of its characters case-insensitively coincides with a
character of the fixed marker `"[REDACTED]"` or of the page headings.
(Without the proviso residual matches remain — see the counterexample,
where the term `"red"` survives inside the marker itself.) -/
theorem C3_amended (terms : List (List Char)) (pages : List (List Char))
    (hterms : ∀ t ∈ terms, t ≠ [] ∧
      ∀ c ∈ mdFrameAlphabet, pyFold c ∉ t.map pyFold) :
    mdContent pyFold terms pages =
      ((List.enumFrom 0 pages).map (fun q =>
        headingFor (q.1 + 1) ++ redactText pyFold terms q.2 ++
          ['\n', '\n'])).flatten ∧
    ∀ t ∈ terms, occursCI pyFold t (mdContent pyFold terms pages) = false :=
  ⟨mdSections_eq_join pyFold terms pages 0,
    fun t htm => occursCI_mdSections pyFold terms hterms pages 0 t htm⟩

/-- C3 counterexample: with the sensitive term `"red"` on a page reading
`"red"`, the produced markdown still contains a case-insensitive literal
match of the term — inside the `"[REDACTED]"` marker that replaced it —
so the claimed no-residual-match guarantee fails as stated. -/
theorem C3_counterexample :
    occursCI pyFold ['r', 'e', 'd']
      (mdContent pyFold [['r', 'e', 'd']] [['r', 'e', 'd']]) = true := by
  decide

/-- C3 witness: for the term `"john"` (disjoint from the marker and
heading alphabet) no case-insensitive match survives in the markdown. -/
theorem C3_amended_witness :
    occursCI pyFold ['j', 'o', 'h', 'n']
      (mdContent pyFold [['j', 'o', 'h', 'n']]
        [['c', 'a', 'l', 'l', ' ', 'j', 'o', 'h', 'n']]) = false :=
  (C3_amended [['j', 'o', 'h', 'n']]
    [['c', 'a', 'l', 'l', ' ', 'j', 'o', 'h', 'n']] (by decide)).2
    ['j', 'o', 'h', 'n'] (by simp)

/-- C9 witness: a concrete one-page document is unchanged by a second
redaction pass. -/
theorem C9_redaction_idempotent_witness :
    EngineText.anonymizeDocument [['a']]
        (EngineText.anonymizeDocument [['a']] [[some 'a', some 'b']]) =
      EngineText.anonymizeDocument [['a']] [[some 'a', some 'b']] :=
  (C9_redaction_idempotent [['a']] [[some 'a', some 'b']]).1
